import Mathlib

set_option synthInstance.maxHeartbeats 400000

/-!
Verification of the pathsqlx row-to-tree reconstruction library.

Shallow embedding conventions:
* Go strings are modeled as lists of characters (`Str := List Char`); all
  inputs of interest here are ASCII, where byte indexing and rune indexing
  coincide.
* `github.com/iancoleman/orderedmap.OrderedMap` is modeled as an association
  list (`OMap`) whose `Set` keeps the position of an existing key and appends
  new keys at the end, exactly like the library.
* Go code that panics (nil-map dereference, out-of-range slicing) is modeled
  by `Option` (`none` = panic); code returning `(T, error)` is modeled by
  `Except`.
* `crypto/md5` and the JSON serialization used by `addHashes` are implemented
  concretely (executable MD5 over the UTF-8 bytes of the `encoding/json`
  output) so that claims can be evaluated on concrete inputs.
-/

/-- Go strings, modeled as rune lists (inputs of interest are ASCII). -/
abbrev Str := List Char

/-- Turn a Lean string literal into the `Str` model. -/
def str (s : String) : Str := s.data

/-- Whether `pat` occurs as a contiguous substring (Go `strings.Contains`). -/
def hasSub (s pat : Str) : Bool :=
  match s with
  | [] => pat.isEmpty
  | _ :: rest => pat.isPrefixOf s || hasSub rest pat

/-- Worker for `splitGo`, structured on `fuel` so that it evaluates in the
kernel; every step consumes at least one character, so any `fuel ≥ s.length`
gives the true result. -/
def splitGoAux (sep : Str) : Nat → Str → Str → List Str
  | _, [], acc => [acc.reverse]
  | 0, s, acc => [acc.reverse ++ s]
  | fuel + 1, c :: rest, acc =>
    if sep.isPrefixOf (c :: rest) then
      acc.reverse :: splitGoAux sep fuel (List.drop (sep.length - 1) rest) []
    else
      splitGoAux sep fuel rest (c :: acc)

/-- Go `strings.Split` with a non-empty separator: split on every
non-overlapping, leftmost occurrence of `sep`. -/
def splitGo (sep : Str) (s : Str) : List Str := splitGoAux sep s.length s []

/-- Go `strings.Join`. -/
def joinSep (sep : Str) (parts : List Str) : Str := List.intercalate sep parts

/-- Worker for `replaceAll`, structured on `fuel` (any `fuel ≥ s.length`
gives the true result). -/
def replaceAllAux (pat rep : Str) : Nat → Str → Str
  | _, [] => []
  | 0, s => s
  | fuel + 1, c :: rest =>
    if pat.isPrefixOf (c :: rest) then
      rep ++ replaceAllAux pat rep fuel (List.drop (pat.length - 1) rest)
    else
      c :: replaceAllAux pat rep fuel rest

/-- Go `strings.Replace(s, pat, rep, -1)` with a non-empty pattern: replace
every non-overlapping, leftmost occurrence. -/
def replaceAll (pat rep : Str) (s : Str) : Str := replaceAllAux pat rep s.length s

/-- Scalar cell values as delivered by the sql driver (`SliceScan`).
`vInt`/`vStr`/`vNull` cover the driver-typed values exercised here. -/
inductive JValue where
  | vInt : Int → JValue
  | vStr : Str → JValue
  | vNull : JValue
deriving DecidableEq, Repr

/-- Ordered map (model of `orderedmap.OrderedMap`): association list, `Set`
keeps the position of an existing key, new keys are appended. -/
abbrev OMap (α : Type) := List (Str × α)

/-- `OrderedMap.Set`: overwrite in place if the key exists, else append. -/
def omSet {α : Type} : OMap α → Str → α → OMap α
  | [], k, v => [(k, v)]
  | (k', v') :: rest, k, v =>
    if k' = k then (k', v) :: rest else (k', v') :: omSet rest k v

/-- `OrderedMap.Get`. -/
def omGet {α : Type} (m : OMap α) (k : Str) : Option α :=
  (m.find? (fun e => e.1 = k)).map (·.2)

/-- Keys of an ordered map, in insertion order. -/
def omKeys {α : Type} (m : OMap α) : List Str := m.map (·.1)

/-!
## The merged tree and the resolved result

`combineIntoTree` produces a tree of nested `OrderedMap`s whose leaves are
scalar cell values: `PTree`.  `removeHashes` resolves it into a value made of
scalars, ordered mappings and sequences: `RTree`.
-/

/-- A node of the merged tree: either a scalar leaf or a nested ordered map. -/
inductive PTree where
  | leaf : JValue → PTree
  | node : List (Str × PTree) → PTree
deriving Repr

/-- The resolved output value (`interface{}` holding scalars,
`*orderedmap.OrderedMap`s and `[]interface{}`s). -/
inductive RTree where
  | leaf : JValue → RTree
  | obj : List (Str × RTree) → RTree
  | arr : List RTree → RTree
deriving Repr

/-- A fingerprint token key: starts and ends with `'!'`.  Go evaluates
`key[:1]` and `key[len(key)-1:]`, which panics on an empty key; the callers
below only apply this to non-empty keys. -/
def isHashKey (k : Str) : Bool :=
  match k with
  | [] => false
  | c :: rest => c = '!' && (c :: rest).getLast (by simp) = '!'

/-- The shape-conflict error message: Go
`fmt.Errorf("The path \"%s.%s\" is hidden by the path \"%s[]\"", path, hidden[0], path)`. -/
def conflictMsg (path hidden0 : Str) : Str :=
  str "The path \"" ++ path ++ str "." ++ hidden0 ++
  str "\" is hidden by the path \"" ++ path ++ str "[]\""

/-- The tail of `removeHashes` on a node (src/pathsqlx.go lines 228-247): with
the partition of the children into `values`, `trees`, `results` done, either
return the sequence `results` (failing when any `values`/`trees` key would be
hidden by it), or the ordered mapping of `values` then `trees`. -/
def assembleNode (path : Str) (values : OMap JValue) (trees : OMap RTree)
    (results : List RTree) : Except Str RTree :=
  let hidden := omKeys values ++ omKeys trees
  if results.length > 0 then
    if hidden.length > 0 then .error (conflictMsg path (hidden.headD []))
    else .ok (.arr results)
  else .ok (.obj (values.map (fun e => (e.1, RTree.leaf e.2)) ++ trees))

/-- Accumulate a scalar child into the walk result (`values.Set(key, value)`). -/
def walkStepLeaf (key : Str) (v : JValue) :
    Except Str (OMap JValue × OMap RTree × List RTree) →
    Except Str (OMap JValue × OMap RTree × List RTree)
  | .error e => .error e
  | .ok (values, trees, results) => .ok ((key, v) :: values, trees, results)

/-- Accumulate a resolved fingerprint-tagged child (`results = append(...)`);
an error while resolving the child aborts the walk. -/
def walkStepTagged :
    Except Str RTree → Except Str (OMap JValue × OMap RTree × List RTree) →
    Except Str (OMap JValue × OMap RTree × List RTree)
  | .error e, _ => .error e
  | .ok _, .error e => .error e
  | .ok r, .ok (values, trees, results) => .ok (values, trees, r :: results)

/-- Accumulate a resolved plain nested child (`trees.Set(key, result)`). -/
def walkStepPlain (key : Str) :
    Except Str RTree → Except Str (OMap JValue × OMap RTree × List RTree) →
    Except Str (OMap JValue × OMap RTree × List RTree)
  | .error e, _ => .error e
  | .ok _, .error e => .error e
  | .ok r, .ok (values, trees, results) => .ok (values, (key, r) :: trees, results)

/-- Propagate a walk error, else assemble the node. -/
def afterWalk (path : Str) :
    Except Str (OMap JValue × OMap RTree × List RTree) → Except Str RTree
  | .error e => .error e
  | .ok (values, trees, results) => assembleNode path values trees results

mutual
/-- `DB.removeHashes` (src/pathsqlx.go lines 203-248): resolve a merged tree.
Children that are maps under fingerprint-token keys become sequence elements;
maps under plain keys are resolved recursively and kept; non-map children are
scalar leaves.  If sequence elements exist alongside any scalar leaf or plain
child, the call fails with the conflict message. -/
def removeHashes : PTree → Str → Except Str RTree
  | .leaf v, _ => .ok (.leaf v)
  | .node cs, path => afterWalk path (removeHashesWalk cs path)

/-- The loop over `tree.Keys()` in `removeHashes`, partitioning children into
(`values`, `trees`, `results`) while recursively resolving map children. -/
def removeHashesWalk : List (Str × PTree) → Str →
    Except Str (OMap JValue × OMap RTree × List RTree)
  | [], _ => .ok ([], [], [])
  | (key, .leaf v) :: rest, path => walkStepLeaf key v (removeHashesWalk rest path)
  | (key, .node cs) :: rest, path =>
    if isHashKey key then
      walkStepTagged (removeHashes (.node cs) (path ++ str "[]")) (removeHashesWalk rest path)
    else
      walkStepPlain key (removeHashes (.node cs) (path ++ str "." ++ key))
        (removeHashesWalk rest path)
end

deriving instance DecidableEq for Except

/-!
## JSON serialization and MD5 (used by `addHashes` for fingerprints)

`addHashes` fingerprints each `[]`-boundary segment with
`md5.Sum(json.Marshal(part))`.  Both are implemented concretely: the JSON
encoder follows `encoding/json` (object keys in `OrderedMap` order, strings
escaped with the default HTML escaping), and MD5 is the standard algorithm,
executable in the kernel.
-/

/-- `encoding/json` escaping of one character (default encoder: `"`, `\`,
control characters, and the HTML characters `<`, `>`, `&`). -/
def jsonEscapeChar (c : Char) : Str :=
  let bs : Char := Char.ofNat 92
  let hexDigit (n : Nat) : Char := if n < 10 then Char.ofNat (48 + n) else Char.ofNat (87 + n)
  if c = Char.ofNat 34 then [bs, Char.ofNat 34]
  else if c = bs then [bs, bs]
  else if c = Char.ofNat 10 then [bs, 'n']
  else if c = Char.ofNat 13 then [bs, 'r']
  else if c = Char.ofNat 9 then [bs, 't']
  else if c.toNat < 32 || c = '<' || c = '>' || c = '&' then
    [bs, 'u', '0', '0', hexDigit (c.toNat / 16 % 16), hexDigit (c.toNat % 16)]
  else [c]

/-- JSON string literal. -/
def jsonString (s : Str) : Str :=
  let q : Char := Char.ofNat 34
  q :: (s.map jsonEscapeChar).join ++ [q]

/-- JSON encoding of a scalar cell value. -/
def jsonValue : JValue → Str
  | .vInt i => str (toString i)
  | .vStr s => jsonString s
  | .vNull => str "null"

/-- JSON encoding of a flat `OrderedMap` of scalars (`orderedmap.MarshalJSON`:
keys in insertion order). -/
def jsonObj (m : OMap JValue) : Str :=
  Char.ofNat 123 ::
    joinSep [','] (m.map (fun kv => jsonString kv.1 ++ [':'] ++ jsonValue kv.2)) ++
    [Char.ofNat 125]

/-- UTF-8 bytes of one character. -/
def utf8Char (c : Char) : List Nat :=
  let n := c.toNat
  if n < 128 then [n]
  else if n < 2048 then [192 + n / 64, 128 + n % 64]
  else if n < 65536 then [224 + n / 4096, 128 + n / 64 % 64, 128 + n % 64]
  else [240 + n / 262144, 128 + n / 4096 % 64, 128 + n / 64 % 64, 128 + n % 64]

/-- UTF-8 bytes of a string. -/
def utf8Bytes (s : Str) : List Nat := (s.map utf8Char).join

/-- 2^32, the word modulus for MD5 arithmetic. -/
def m32 : Nat := 4294967296

/-- Rotate a 32-bit word left by `s` bits. -/
def rotl32 (x s : Nat) : Nat := ((x <<< s) % m32) ||| (x >>> (32 - s))

/-- 32-bit bitwise complement. -/
def not32 (x : Nat) : Nat := x ^^^ 4294967295

/-- The MD5 sine-derived constant table. -/
def md5K : List Nat :=
  [3614090360, 3905402710, 606105819, 3250441966, 4118548399, 1200080426, 2821735955, 4249261313,
   1770035416, 2336552879, 4294925233, 2304563134, 1804603682, 4254626195, 2792965006, 1236535329,
   4129170786, 3225465664, 643717713, 3921069994, 3593408605, 38016083, 3634488961, 3889429448,
   568446438, 3275163606, 4107603335, 1163531501, 2850285829, 4243563512, 1735328473, 2368359562,
   4294588738, 2272392833, 1839030562, 4259657740, 2763975236, 1272893353, 4139469664, 3200236656,
   681279174, 3936430074, 3572445317, 76029189, 3654602809, 3873151461, 530742520, 3299628645,
   4096336452, 1126891415, 2878612391, 4237533241, 1700485571, 2399980690, 4293915773, 2240044497,
   1873313359, 4264355552, 2734768916, 1309151649, 4149444226, 3174756917, 718787259, 3951481745]

/-- The MD5 per-round shift table. -/
def md5S : List Nat :=
  [7, 12, 17, 22, 7, 12, 17, 22, 7, 12, 17, 22, 7, 12, 17, 22,
   5, 9, 14, 20, 5, 9, 14, 20, 5, 9, 14, 20, 5, 9, 14, 20,
   4, 11, 16, 23, 4, 11, 16, 23, 4, 11, 16, 23, 4, 11, 16, 23,
   6, 10, 15, 21, 6, 10, 15, 21, 6, 10, 15, 21, 6, 10, 15, 21]

/-- Split a 64-byte block into 16 little-endian 32-bit words. -/
def chunkWords : List Nat → List Nat
  | b0 :: b1 :: b2 :: b3 :: rest =>
    (b0 + b1 * 256 + b2 * 65536 + b3 * 16777216) :: chunkWords rest
  | _ => []

/-- One MD5 round. -/
def md5Step (ws : List Nat) (i : Nat) (st : Nat × Nat × Nat × Nat) : Nat × Nat × Nat × Nat :=
  let (a, b, c, d) := st
  let fg : Nat × Nat :=
    if i < 16 then ((b &&& c) ||| (not32 b &&& d), i)
    else if i < 32 then ((d &&& b) ||| (not32 d &&& c), (5 * i + 1) % 16)
    else if i < 48 then (b ^^^ c ^^^ d, (3 * i + 5) % 16)
    else (c ^^^ (b ||| not32 d), (7 * i) % 16)
  let f := (fg.1 + a + md5K.getD i 0 + ws.getD fg.2 0) % m32
  (d, (b + rotl32 f (md5S.getD i 0)) % m32, b, c)

/-- Iterate the 64 MD5 rounds (fuel counts down from 64). -/
def md5Rounds (ws : List Nat) : Nat → (Nat × Nat × Nat × Nat) → Nat × Nat × Nat × Nat
  | 0, st => st
  | n + 1, st => md5Rounds ws n (md5Step ws (64 - (n + 1)) st)

/-- Process one 64-byte block. -/
def md5Block (st : Nat × Nat × Nat × Nat) (block : List Nat) : Nat × Nat × Nat × Nat :=
  let ws := chunkWords block
  let (a, b, c, d) := st
  let (a2, b2, c2, d2) := md5Rounds ws 64 (a, b, c, d)
  ((a + a2) % m32, (b + b2) % m32, (c + c2) % m32, (d + d2) % m32)

/-- Process `fuel` consecutive 64-byte blocks. -/
def md5Blocks : Nat → (Nat × Nat × Nat × Nat) → List Nat → Nat × Nat × Nat × Nat
  | 0, st, _ => st
  | n + 1, st, bs => md5Blocks n (md5Block st (bs.take 64)) (bs.drop 64)

/-- The 8-byte little-endian encoding of the bit length. -/
def lenBytes8 (n : Nat) : List Nat :=
  [n % 256, n / 256 % 256, n / 65536 % 256, n / 16777216 % 256,
   n / 4294967296 % 256, n / 1099511627776 % 256,
   n / 281474976710656 % 256, n / 72057594037927936 % 256]

/-- MD5 padding: `0x80`, zeros to 56 mod 64, then the 64-bit bit length. -/
def md5Pad (msg : List Nat) : List Nat :=
  let padLen := (64 + 56 - (msg.length + 1) % 64) % 64
  msg ++ [128] ++ List.replicate padLen 0 ++ lenBytes8 (msg.length * 8)

/-- Lowercase hex of one big-endian 16-bit group. -/
def word2hex (w : Nat) : Str :=
  let hexDigit (n : Nat) : Char := if n < 10 then Char.ofNat (48 + n) else Char.ofNat (87 + n)
  [hexDigit (w / 4096 % 16), hexDigit (w / 256 % 16), hexDigit (w / 16 % 16), hexDigit (w % 16)]

/-- Hex of a 32-bit state word, bytes in little-endian order
(`hex.EncodeToString` of the digest bytes). -/
def word2hexLE (w : Nat) : Str :=
  word2hex (w % 256 * 256 + w / 256 % 256) ++ word2hex (w / 65536 % 256 * 256 + w / 16777216 % 256)

/-- `hex.EncodeToString(md5.Sum(bytes))`: the 32-character lowercase digest. -/
def md5Hex (msg : List Nat) : Str :=
  let padded := md5Pad msg
  let st := md5Blocks (padded.length / 64) (1732584193, 4023233417, 2562383102, 271733878) padded
  word2hexLE st.1 ++ word2hexLE st.2.1 ++ word2hexLE st.2.2.1 ++ word2hexLE st.2.2.2

/-- The fingerprint of one `[]`-boundary segment: MD5 of its JSON encoding. -/
def segmentHash (part : OMap JValue) : Str := md5Hex (utf8Bytes (jsonObj part))

/-!
## The reconstruction pipeline (src/pathsqlx.go)
-/

/-- A column that starts with `$` and contains a `.`
(`column[0:1] == "$" && strings.LastIndex(column, ".") != -1`). -/
def dottedDollar (c : Str) : Bool :=
  (c.take 1 = str "$") && ((splitGo (str ".") c).length ≥ 2)

/-- Everything before the last `.` (`column[:pos]`). -/
def hintPrefix (c : Str) : Str := joinSep (str ".") (splitGo (str ".") c).dropLast

/-- Everything after the last `.` (`column[pos+1:]`). -/
def lastProp (c : Str) : Str := (splitGo (str ".") c).getLastD []

/-- `DB.getPaths` (src/pathsqlx.go lines 83-98).  The running prefix starts at
`$[]`; a column starting with `$` and containing a `.` resets it to everything
before its last `.` and contributes only its final segment as the property.
Go evaluates `column[0:1]`, which panics on an empty column name; claims
below therefore assume non-empty column names. -/
def getPaths (columns : List Str) : List Str :=
  go (str "$[]") columns
where
  go : Str → List Str → List Str
    | _, [] => []
    | path, column :: rest =>
      if dottedDollar column then
        (hintPrefix column ++ str "." ++ lastProp column) :: go (hintPrefix column) rest
      else
        (path ++ str "." ++ column) :: go path rest

/-- One row of `DB.getAllRecords` (src/pathsqlx.go lines 100-114): zip the
cells with the paths, dropping each path's leading `$`.  Cell values arrive
already typed from the driver. -/
def mkRecord (paths : List Str) (row : List JValue) : OMap JValue :=
  (List.zip paths row).foldl (fun record pv => omSet record (pv.1.drop 1) pv.2) []

/-- One record of `DB.groupBySeparator` (src/pathsqlx.go lines 116-138):
regroup each key under its prefix up to (and including) the last `separator`
occurrence. -/
def groupRecord (sep : Str) (record : OMap JValue) : OMap (OMap JValue) :=
  record.foldl
    (fun result nv =>
      let parts := splitGo sep nv.1
      let newName := parts.getLastD []
      let path0 := joinSep sep parts.dropLast
      let path := if parts.length - 1 > 0 then path0 ++ sep else path0
      let sub := (omGet result path).getD []
      omSet result path (omSet sub newName nv.2))
    []

/-- `DB.groupBySeparator`. -/
def groupBySeparator (records : List (OMap JValue)) (sep : Str) : List (OMap (OMap JValue)) :=
  records.map (groupRecord sep)

/-- The key-rewriting table of `DB.addHashes` (src/pathsqlx.go lines 143-156):
every key ending in `[]` maps to the key with its final `[]` replaced by
`.!<md5 of the segment JSON>!`.  Represented in record order; Go stores it in
an unordered `map[string]string`. -/
def hashMapping (record : OMap (OMap JValue)) : OMap Str :=
  record.foldl
    (fun m kv =>
      if (str "[]").isSuffixOf kv.1 then
        m ++ [(kv.1, kv.1.take (kv.1.length - 2) ++ str ".!" ++ segmentHash kv.2 ++ str "!")]
      else m)
    []

/-- One record of `DB.addHashes` (src/pathsqlx.go lines 140-173), with the
replacement order `ord` made explicit: Go enumerates the unordered mapping
keys and sorts them with `sort.Sort(ByRevLen(...))`, an unstable sort by
descending length, so `ord` is some permutation of the mapping keys that is
sorted by descending length. -/
def addHashesRecordWith (ord : List Str) (record : OMap (OMap JValue)) : OMap (OMap JValue) :=
  let mapping := hashMapping record
  record.foldl
    (fun result kv =>
      omSet result (ord.foldl (fun key s => replaceAll s ((omGet mapping s).getD s) key) kv.1) kv.2)
    []

/-- Validity of a replacement order for a record: a permutation of the mapping
keys, sorted by descending length (all `sort.Sort(ByRevLen ...)` can
guarantee; ties are broken by the unordered map's iteration order). -/
def validKeyOrder (ord : List Str) (record : OMap (OMap JValue)) : Prop :=
  ord.Perm (omKeys (hashMapping record)) ∧
  ord.Pairwise (fun a b => b.length ≤ a.length)

/-- Canonical replacement order: insertion order stably sorted by descending
length (one outcome permitted by `sort.Sort`). -/
def sortByRevLen (ks : List Str) : List Str :=
  ks.insertionSort (fun a b => b.length ≤ a.length)

/-- `DB.addHashes` with the canonical replacement order. -/
def addHashes (records : List (OMap (OMap JValue))) : List (OMap (OMap JValue)) :=
  records.map (fun r => addHashesRecordWith (sortByRevLen (omKeys (hashMapping r))) r)

/-- `DB.addHashes` with one explicit replacement order per record. -/
def addHashesWith (ords : List (List Str)) (records : List (OMap (OMap JValue))) :
    List (OMap (OMap JValue)) :=
  List.zipWith addHashesRecordWith ords records

/-- The inner walk of `DB.combineIntoTree` (src/pathsqlx.go lines 183-194):
create/reuse nested maps along `segs`, then set the final key.  Reaching a
scalar on the way makes Go dereference a nil map and panic: `none`. -/
def insertPath : List Str → Str → JValue → OMap PTree → Option (OMap PTree)
  | [], last, v, m => some (omSet m last (.leaf v))
  | p :: rest, last, v, m =>
    match omGet m p with
    | none =>
      match insertPath rest last v [] with
      | none => none
      | some sub => some (omSet m p (.node sub))
    | some (.node sub) =>
      match insertPath rest last v sub with
      | none => none
      | some sub2 => some (omSet m p (.node sub2))
    | some (.leaf _) => none

/-- One record's contribution to `DB.combineIntoTree`. -/
def combineRecord (sep : Str) (root : OMap PTree) (record : OMap (OMap JValue)) :
    Option (OMap PTree) :=
  record.foldlM
    (fun acc nv =>
      nv.2.foldlM
        (fun acc2 kv =>
          let segs := splitGo sep (nv.1 ++ kv.1)
          insertPath segs.dropLast (segs.getLastD []) kv.2 acc2)
        acc)
    root

/-- `DB.combineIntoTree` (src/pathsqlx.go lines 175-201): merge all records
into one tree and return the subtree under the root key `""`.  When that key
is absent or holds a scalar, Go returns a nil map on which the subsequent
`removeHashes` panics: `none`. -/
def combineIntoTree (records : List (OMap (OMap JValue))) (sep : Str) : Option PTree :=
  match records.foldlM (combineRecord sep) [] with
  | none => none
  | some root =>
    match omGet root (str "") with
    | some (.node cs) => some (.node cs)
    | _ => none

/-- `DB.PathQuery` (src/pathsqlx.go lines 251-285) after the rows have been
fetched: the four reconstruction stages applied to the column names and rows. -/
def runPathQuery (columns : List Str) (rows : List (List JValue)) : Option (Except Str RTree) :=
  let paths := getPaths columns
  let records := rows.map (mkRecord paths)
  let groups := groupBySeparator records (str "[]")
  let hashed := addHashes groups
  match combineIntoTree hashed (str ".") with
  | none => none
  | some t => some (removeHashes t (str "$"))

/-- The reconstruction pipeline from flat records on, with one explicit
`addHashes` replacement order per record (for the determinism claim). -/
def reconstructWith (ords : List (List Str)) (records : List (OMap JValue)) :
    Option (Except Str RTree) :=
  let groups := groupBySeparator records (str "[]")
  let hashed := addHashesWith ords groups
  match combineIntoTree hashed (str ".") with
  | none => none
  | some t => some (removeHashes t (str "$"))

/-!
## Claim C1: shape conflicts in `removeHashes`

Spec 4.5 partitions a node's children into scalar leaves, fingerprint-tagged
children and plain nested children.  In the code a *fingerprint-tagged child*
is a nested map under a `!...!` key; a map-typed child under a plain key is a
*plain nested child*; every non-map child is a *scalar leaf*.
-/

/-- A fingerprint-tagged child: a nested map under a `!...!` key. -/
def isTaggedChild : Str × PTree → Bool
  | (k, .node _) => isHashKey k
  | _ => false

/-- A scalar leaf or a plain (non-tagged) nested child. -/
def isHiddenChild : Str × PTree → Bool
  | (_, .leaf _) => true
  | (k, .node _) => !isHashKey k

mutual
/-- The claim's conflict condition: some node has at least one
fingerprint-tagged child together with at least one scalar leaf or plain
nested child. -/
def hasConflict : PTree → Bool
  | .leaf _ => false
  | .node cs => (cs.any isTaggedChild && cs.any isHiddenChild) || hasConflictL cs

/-- Conflict below some child of a children list. -/
def hasConflictL : List (Str × PTree) → Bool
  | [] => false
  | (_, .node cs) :: rest => hasConflict (.node cs) || hasConflictL rest
  | (_, .leaf _) :: rest => hasConflictL rest
end

/-- The scalar-leaf children of a node, in order (the `values` map). -/
def specValues : List (Str × PTree) → OMap JValue
  | [] => []
  | (k, .leaf v) :: rest => (k, v) :: specValues rest
  | (_, .node _) :: rest => specValues rest

mutual
/-- Spec 4.5 resolution of a conflict-free tree: a node with tagged children
becomes the sequence of their resolved values (token dropped); otherwise an
ordered mapping of scalar leaves then resolved plain children. -/
def resolveSpec : PTree → RTree
  | .leaf v => .leaf v
  | .node cs =>
    if cs.any isTaggedChild then .arr (specResults cs)
    else .obj ((specValues cs).map (fun e => (e.1, RTree.leaf e.2)) ++ specTrees cs)

/-- Resolved plain nested children, in order (the `trees` map). -/
def specTrees : List (Str × PTree) → OMap RTree
  | [] => []
  | (k, .node cs) :: rest =>
    if isHashKey k then specTrees rest else (k, resolveSpec (.node cs)) :: specTrees rest
  | (_, .leaf _) :: rest => specTrees rest

/-- Resolved fingerprint-tagged children, in order (the `results` slice). -/
def specResults : List (Str × PTree) → List RTree
  | [] => []
  | (k, .node cs) :: rest =>
    if isHashKey k then resolveSpec (.node cs) :: specResults rest else specResults rest
  | (_, .leaf _) :: rest => specResults rest
end

mutual
/-- Go-fidelity scope: `removeHashes` evaluates `key[:1]` on every map-typed
child's key, which panics when that key is empty; `wfKeys` rules this out. -/
def wfKeys : PTree → Bool
  | .leaf _ => true
  | .node cs => wfKeysL cs

/-- `wfKeys` for a children list. -/
def wfKeysL : List (Str × PTree) → Bool
  | [] => true
  | (_, .leaf _) :: rest => wfKeysL rest
  | (k, .node cs) :: rest => !k.isEmpty && wfKeys (.node cs) && wfKeysL rest
end

/-- Whether an `Except` is an error. -/
def isErr {α : Type} : Except Str α → Bool
  | .error _ => true
  | .ok _ => false

theorem specResults_nil_iff (cs : List (Str × PTree)) :
    specResults cs = [] ↔ cs.any isTaggedChild = false := by
  induction cs with
  | nil => simp [specResults]
  | cons c rest ih =>
    obtain ⟨k, t⟩ := c
    cases t with
    | leaf v => simpa [specResults, isTaggedChild] using ih
    | node cs2 =>
      by_cases hk : isHashKey k
      · simp [specResults, isTaggedChild, hk]
      · simpa [specResults, isTaggedChild, hk] using ih

theorem hidden_nil_iff (cs : List (Str × PTree)) :
    omKeys (specValues cs) ++ omKeys (specTrees cs) = [] ↔ cs.any isHiddenChild = false := by
  induction cs with
  | nil => simp [specValues, specTrees, omKeys]
  | cons c rest ih =>
    obtain ⟨k, t⟩ := c
    cases t with
    | leaf v => simp [specValues, specTrees, omKeys, isHiddenChild]
    | node cs2 =>
      by_cases hk : isHashKey k
      · simpa [specValues, specTrees, omKeys, isHiddenChild, hk] using ih
      · simp [specValues, specTrees, omKeys, isHiddenChild, hk]

mutual
theorem removeHashes_spec (t : PTree) (p : Str) :
    isErr (removeHashes t p) = hasConflict t ∧
    (hasConflict t = false → removeHashes t p = .ok (resolveSpec t)) ∧
    (∀ e, removeHashes t p = .error e → ∃ q h, e = conflictMsg q h) := by
  cases t with
  | leaf v =>
    refine ⟨?_, fun _ => ?_, fun e he => ?_⟩
    · rw [removeHashes, hasConflict]; rfl
    · rw [removeHashes, resolveSpec]
    · rw [removeHashes] at he; exact absurd he (by simp)
  | node cs =>
    obtain ⟨hw1, hw2, hw3⟩ := removeHashesWalk_spec cs p
    cases hwalk : removeHashesWalk cs p with
    | error e =>
      have hcL : hasConflictL cs = true := by rw [← hw1, hwalk]; rfl
      have hconf : hasConflict (.node cs) = true := by rw [hasConflict, hcL]; simp
      have hrun : removeHashes (.node cs) p = .error e := by
        rw [removeHashes, hwalk, afterWalk]
      refine ⟨by rw [hrun, hconf]; rfl, ?_, ?_⟩
      · intro h; rw [hconf] at h; exact absurd h (by simp)
      · intro e2 he2
        rw [hrun] at he2
        obtain ⟨q, hh, hq⟩ := hw3 e hwalk
        exact ⟨q, hh, (Except.error.inj he2) ▸ hq⟩
    | ok vtr =>
      have hcL : hasConflictL cs = false := by
        cases h : hasConflictL cs
        · rfl
        · rw [← hw1, hwalk] at h; exact absurd h (by simp [isErr])
      obtain rfl : vtr = (specValues cs, specTrees cs, specResults cs) :=
        Except.ok.inj (hwalk.symm.trans (hw2 hcL))
      by_cases htag : cs.any isTaggedChild = true
      · have hres : (specResults cs).length > 0 := by
          rcases Nat.eq_zero_or_pos (specResults cs).length with h0 | h0
          · rw [List.length_eq_zero] at h0
            rw [(specResults_nil_iff cs).mp h0] at htag; exact absurd htag (by simp)
          · exact h0
        by_cases hhid : cs.any isHiddenChild = true
        · -- conflict at this node
          have hne : omKeys (specValues cs) ++ omKeys (specTrees cs) ≠ [] := by
            intro h; rw [(hidden_nil_iff cs).mp h] at hhid; exact absurd hhid (by simp)
          obtain ⟨h0, rest0, hcons⟩ : ∃ h0 rest0,
              omKeys (specValues cs) ++ omKeys (specTrees cs) = h0 :: rest0 := by
            cases hh : omKeys (specValues cs) ++ omKeys (specTrees cs) with
            | nil => exact absurd hh hne
            | cons a b => exact ⟨a, b, rfl⟩
          have hlen : (omKeys (specValues cs) ++ omKeys (specTrees cs)).length > 0 := by
            rw [hcons]; simp
          have hrun : removeHashes (.node cs) p = .error (conflictMsg p h0) := by
            rw [removeHashes, hwalk, afterWalk]
            simp only [assembleNode]
            rw [if_pos hres, if_pos hlen, hcons]
            rfl
          have hconf : hasConflict (.node cs) = true := by
            rw [hasConflict, htag, hhid]; rfl
          refine ⟨by rw [hrun, hconf]; rfl, ?_, ?_⟩
          · intro h; rw [hconf] at h; exact absurd h (by simp)
          · intro e2 he2; rw [hrun] at he2
            exact ⟨p, h0, (Except.error.inj he2).symm⟩
        · -- all children fingerprint-tagged: a sequence
          have hhid2 : cs.any isHiddenChild = false := by
            cases h : cs.any isHiddenChild
            · rfl
            · exact absurd h hhid
          have hnil : omKeys (specValues cs) ++ omKeys (specTrees cs) = [] :=
            (hidden_nil_iff cs).mpr hhid2
          have hlen0 : ¬ (omKeys (specValues cs) ++ omKeys (specTrees cs)).length > 0 := by
            rw [hnil]; simp
          have hrun : removeHashes (.node cs) p = .ok (.arr (specResults cs)) := by
            rw [removeHashes, hwalk, afterWalk]
            simp only [assembleNode]
            rw [if_pos hres, if_neg hlen0]
          have hconf : hasConflict (.node cs) = false := by
            rw [hasConflict, hhid2, hcL]; simp
          have hresolve : resolveSpec (.node cs) = .arr (specResults cs) := by
            rw [resolveSpec, htag]; simp
          refine ⟨by rw [hrun, hconf]; rfl, fun _ => by rw [hrun, hresolve], ?_⟩
          intro e2 he2; rw [hrun] at he2; exact absurd he2 (by simp)
      · -- no fingerprint-tagged children: an ordered mapping
        have htag2 : cs.any isTaggedChild = false := by
          cases h : cs.any isTaggedChild
          · rfl
          · exact absurd h htag
        have hres : ¬ (specResults cs).length > 0 := by
          rw [(specResults_nil_iff cs).mpr htag2]; simp
        have hrun : removeHashes (.node cs) p =
            .ok (.obj ((specValues cs).map (fun e => (e.1, RTree.leaf e.2)) ++ specTrees cs)) := by
          rw [removeHashes, hwalk, afterWalk]
          simp only [assembleNode]
          rw [if_neg hres]
        have hconf : hasConflict (.node cs) = false := by
          rw [hasConflict, htag2, hcL]; simp
        have hresolve : resolveSpec (.node cs) =
            .obj ((specValues cs).map (fun e => (e.1, RTree.leaf e.2)) ++ specTrees cs) := by
          rw [resolveSpec, htag2]; simp
        refine ⟨by rw [hrun, hconf]; rfl, fun _ => by rw [hrun, hresolve], ?_⟩
        intro e2 he2; rw [hrun] at he2; exact absurd he2 (by simp)

theorem removeHashesWalk_spec (cs : List (Str × PTree)) (p : Str) :
    isErr (removeHashesWalk cs p) = hasConflictL cs ∧
    (hasConflictL cs = false →
      removeHashesWalk cs p = .ok (specValues cs, specTrees cs, specResults cs)) ∧
    (∀ e, removeHashesWalk cs p = .error e → ∃ q h, e = conflictMsg q h) := by
  match cs with
  | [] =>
    refine ⟨?_, fun _ => ?_, fun e he => ?_⟩
    · rw [removeHashesWalk, hasConflictL]; rfl
    · rw [removeHashesWalk, specValues, specTrees, specResults]
    · rw [removeHashesWalk] at he; exact absurd he (by simp)
  | (k, t) :: rest =>
    obtain ⟨hr1, hr2, hr3⟩ := removeHashesWalk_spec rest p
    cases t with
    | leaf v =>
      have hL : hasConflictL ((k, PTree.leaf v) :: rest) = hasConflictL rest := by
        rw [hasConflictL]
      cases hrest : removeHashesWalk rest p with
      | error e =>
        have hrun : removeHashesWalk ((k, PTree.leaf v) :: rest) p = .error e := by
          rw [removeHashesWalk, hrest, walkStepLeaf]
        have hcR : hasConflictL rest = true := by rw [← hr1, hrest]; rfl
        refine ⟨by rw [hrun, hL, hcR]; rfl, ?_, ?_⟩
        · intro h; rw [hL, hcR] at h; exact absurd h (by simp)
        · intro e2 he2; rw [hrun] at he2
          obtain ⟨q, hh, hq⟩ := hr3 e hrest
          exact ⟨q, hh, (Except.error.inj he2) ▸ hq⟩
      | ok vtr =>
        have hcR : hasConflictL rest = false := by
          cases h : hasConflictL rest
          · rfl
          · rw [← hr1, hrest] at h; exact absurd h (by simp [isErr])
        obtain rfl : vtr = (specValues rest, specTrees rest, specResults rest) :=
          Except.ok.inj (hrest.symm.trans (hr2 hcR))
        have hrun : removeHashesWalk ((k, PTree.leaf v) :: rest) p =
            .ok ((k, v) :: specValues rest, specTrees rest, specResults rest) := by
          rw [removeHashesWalk, hrest, walkStepLeaf]
        refine ⟨by rw [hrun, hL, hcR]; rfl, ?_, ?_⟩
        · intro _
          rw [hrun, specValues, specTrees, specResults]
        · intro e2 he2; rw [hrun] at he2; exact absurd he2 (by simp)
    | node cs2 =>
      have hL : hasConflictL ((k, PTree.node cs2) :: rest) =
          (hasConflict (.node cs2) || hasConflictL rest) := by
        rw [hasConflictL]
      by_cases hk : isHashKey k = true
      · obtain ⟨ht1, ht2, ht3⟩ := removeHashes_spec (.node cs2) (p ++ str "[]")
        cases hchild : removeHashes (.node cs2) (p ++ str "[]") with
        | error e =>
          have hcc : hasConflict (.node cs2) = true := by rw [← ht1, hchild]; rfl
          have hrun : removeHashesWalk ((k, PTree.node cs2) :: rest) p = .error e := by
            rw [removeHashesWalk, if_pos hk, hchild, walkStepTagged]
          refine ⟨by rw [hrun, hL, hcc]; rfl, ?_, ?_⟩
          · intro h; rw [hL, hcc] at h; exact absurd h (by simp)
          · intro e2 he2; rw [hrun] at he2
            obtain ⟨q, hh, hq⟩ := ht3 e hchild
            exact ⟨q, hh, (Except.error.inj he2) ▸ hq⟩
        | ok r =>
          have hcc : hasConflict (.node cs2) = false := by
            cases h : hasConflict (.node cs2)
            · rfl
            · rw [← ht1, hchild] at h; exact absurd h (by simp [isErr])
          obtain rfl : r = resolveSpec (.node cs2) :=
            Except.ok.inj (hchild.symm.trans (ht2 hcc))
          cases hrest : removeHashesWalk rest p with
          | error e =>
            have hrun : removeHashesWalk ((k, PTree.node cs2) :: rest) p = .error e := by
              rw [removeHashesWalk, if_pos hk, hchild, hrest, walkStepTagged]
            have hcR : hasConflictL rest = true := by rw [← hr1, hrest]; rfl
            refine ⟨by rw [hrun, hL, hcc, hcR]; rfl, ?_, ?_⟩
            · intro h; rw [hL, hcc, hcR] at h; exact absurd h (by simp)
            · intro e2 he2; rw [hrun] at he2
              obtain ⟨q, hh, hq⟩ := hr3 e hrest
              exact ⟨q, hh, (Except.error.inj he2) ▸ hq⟩
          | ok vtr =>
            have hcR : hasConflictL rest = false := by
              cases h : hasConflictL rest
              · rfl
              · rw [← hr1, hrest] at h; exact absurd h (by simp [isErr])
            obtain rfl : vtr = (specValues rest, specTrees rest, specResults rest) :=
              Except.ok.inj (hrest.symm.trans (hr2 hcR))
            have hrun : removeHashesWalk ((k, PTree.node cs2) :: rest) p =
                .ok (specValues rest, specTrees rest,
                     resolveSpec (.node cs2) :: specResults rest) := by
              rw [removeHashesWalk, if_pos hk, hchild, hrest, walkStepTagged]
            refine ⟨by rw [hrun, hL, hcc, hcR]; rfl, ?_, ?_⟩
            · intro _
              rw [hrun]
              simp [specValues, specTrees, specResults, hk]
            · intro e2 he2; rw [hrun] at he2; exact absurd he2 (by simp)
      · obtain ⟨ht1, ht2, ht3⟩ := removeHashes_spec (.node cs2) (p ++ str "." ++ k)
        cases hchild : removeHashes (.node cs2) (p ++ str "." ++ k) with
        | error e =>
          have hcc : hasConflict (.node cs2) = true := by rw [← ht1, hchild]; rfl
          have hrun : removeHashesWalk ((k, PTree.node cs2) :: rest) p = .error e := by
            rw [removeHashesWalk, if_neg hk, hchild, walkStepPlain]
          refine ⟨by rw [hrun, hL, hcc]; rfl, ?_, ?_⟩
          · intro h; rw [hL, hcc] at h; exact absurd h (by simp)
          · intro e2 he2; rw [hrun] at he2
            obtain ⟨q, hh, hq⟩ := ht3 e hchild
            exact ⟨q, hh, (Except.error.inj he2) ▸ hq⟩
        | ok r =>
          have hcc : hasConflict (.node cs2) = false := by
            cases h : hasConflict (.node cs2)
            · rfl
            · rw [← ht1, hchild] at h; exact absurd h (by simp [isErr])
          obtain rfl : r = resolveSpec (.node cs2) :=
            Except.ok.inj (hchild.symm.trans (ht2 hcc))
          cases hrest : removeHashesWalk rest p with
          | error e =>
            have hrun : removeHashesWalk ((k, PTree.node cs2) :: rest) p = .error e := by
              rw [removeHashesWalk, if_neg hk, hchild, hrest, walkStepPlain]
            have hcR : hasConflictL rest = true := by rw [← hr1, hrest]; rfl
            refine ⟨by rw [hrun, hL, hcc, hcR]; rfl, ?_, ?_⟩
            · intro h; rw [hL, hcc, hcR] at h; exact absurd h (by simp)
            · intro e2 he2; rw [hrun] at he2
              obtain ⟨q, hh, hq⟩ := hr3 e hrest
              exact ⟨q, hh, (Except.error.inj he2) ▸ hq⟩
          | ok vtr =>
            have hcR : hasConflictL rest = false := by
              cases h : hasConflictL rest
              · rfl
              · rw [← hr1, hrest] at h; exact absurd h (by simp [isErr])
            obtain rfl : vtr = (specValues rest, specTrees rest, specResults rest) :=
              Except.ok.inj (hrest.symm.trans (hr2 hcR))
            have hrun : removeHashesWalk ((k, PTree.node cs2) :: rest) p =
                .ok (specValues rest, (k, resolveSpec (.node cs2)) :: specTrees rest,
                     specResults rest) := by
              rw [removeHashesWalk, if_neg hk, hchild, hrest, walkStepPlain]
            refine ⟨by rw [hrun, hL, hcc, hcR]; rfl, ?_, ?_⟩
            · intro _
              rw [hrun]
              simp [specValues, specTrees, specResults, hk]
            · intro e2 he2; rw [hrun] at he2; exact absurd he2 (by simp)
end

theorem isErr_iff_error {α : Type} (x : Except Str α) :
    (∃ e, x = .error e) ↔ isErr x = true := by
  cases x with
  | error e => simp [isErr]
  | ok v => simp [isErr]

/-- C1: for every merged tree, `removeHashes` fails (with a shape-conflict
error naming the offending path) if and only if some node has at least one
fingerprint-tagged child together with at least one scalar leaf or plain
nested child; with no such node it succeeds, and each node with tagged
children becomes the sequence of their resolved values with the tokens
dropped (`resolveSpec`).  The `wfKeys` hypothesis is the Go-fidelity scope:
`removeHashes` slices `key[:1]` on map-children keys, panicking on an empty
key. -/
theorem removeHashes_conflict_characterization (t : PTree) (p : Str)
    (hwf : wfKeys t = true) :
    ((∃ e, removeHashes t p = .error e) ↔ hasConflict t = true) ∧
    (hasConflict t = false → removeHashes t p = .ok (resolveSpec t)) ∧
    (∀ e, removeHashes t p = .error e → ∃ q h0, e = conflictMsg q h0) := by
  obtain ⟨h1, h2, h3⟩ := removeHashes_spec t p
  exact ⟨by rw [isErr_iff_error, h1], h2, h3⟩

/-- Witness for C1 at a concrete conflicting tree (the `$.a[].x` / `$.a.y`
hint collision) and a concrete clean tree. -/
theorem removeHashes_conflict_characterization_witness :
    (wfKeys (.node [(str "a", .node [(str "!h!", .node [(str "x", .leaf (.vInt 1))]),
        (str "y", .leaf (.vInt 2))])]) = true) ∧
    (((∃ e, removeHashes (.node [(str "a", .node [(str "!h!", .node [(str "x", .leaf (.vInt 1))]),
        (str "y", .leaf (.vInt 2))])]) (str "$") = .error e) ↔
      hasConflict (.node [(str "a", .node [(str "!h!", .node [(str "x", .leaf (.vInt 1))]),
        (str "y", .leaf (.vInt 2))])]) = true) ∧
     (hasConflict (.node [(str "a", .node [(str "!h!", .node [(str "x", .leaf (.vInt 1))]),
        (str "y", .leaf (.vInt 2))])]) = false →
      removeHashes (.node [(str "a", .node [(str "!h!", .node [(str "x", .leaf (.vInt 1))]),
        (str "y", .leaf (.vInt 2))])]) (str "$") =
        .ok (resolveSpec (.node [(str "a", .node [(str "!h!", .node [(str "x", .leaf (.vInt 1))]),
        (str "y", .leaf (.vInt 2))])]))) ∧
     (∀ e, removeHashes (.node [(str "a", .node [(str "!h!", .node [(str "x", .leaf (.vInt 1))]),
        (str "y", .leaf (.vInt 2))])]) (str "$") = .error e → ∃ q h0, e = conflictMsg q h0)) :=
  ⟨by decide,
   removeHashes_conflict_characterization
     (.node [(str "a", .node [(str "!h!", .node [(str "x", .leaf (.vInt 1))]),
        (str "y", .leaf (.vInt 2))])]) (str "$") (by decide)⟩

/-!
## Claim C7: resolving an already-resolved tree

The claim: on trees whose keys contain no `[]` and are not fingerprint
tokens, `removeHashes` is the identity (including key order).  The code
rebuilds every node as scalar children first, then nested children
(src/pathsqlx.go lines 238-246), so key order is preserved only when the
scalars already precede the nested children.
-/

mutual
/-- No key (of a scalar or nested child, recursively) contains `[]` or is a
fingerprint token, and nested-child keys are non-empty (Go-fidelity scope:
`key[:1]` panics on an empty map-child key). -/
def cleanKeys : PTree → Bool
  | .leaf _ => true
  | .node cs => cleanKeysL cs

/-- `cleanKeys` on a children list. -/
def cleanKeysL : List (Str × PTree) → Bool
  | [] => true
  | (k, .leaf _) :: rest => !hasSub k (str "[]") && !isHashKey k && cleanKeysL rest
  | (k, .node cs) :: rest =>
    !hasSub k (str "[]") && !isHashKey k && !k.isEmpty &&
      cleanKeys (.node cs) && cleanKeysL rest
end

mutual
/-- At every node, all scalar-leaf children precede all nested children. -/
def sortedChildren : PTree → Bool
  | .leaf _ => true
  | .node cs => sortedL cs

/-- `sortedChildren` on a children list: leaves may come first, and once a
nested child appears, only nested children (with sorted subtrees) follow. -/
def sortedL : List (Str × PTree) → Bool
  | [] => true
  | (_, .leaf _) :: rest => sortedL rest
  | (_, .node cs) :: rest => sortedChildren (.node cs) && restNodes rest

/-- All children are nested, with sorted subtrees. -/
def restNodes : List (Str × PTree) → Bool
  | [] => true
  | (_, .leaf _) :: _ => false
  | (_, .node cs) :: rest => sortedChildren (.node cs) && restNodes rest
end

mutual
/-- The identity embedding of a merged tree into the result type. -/
def embedT : PTree → RTree
  | .leaf v => .leaf v
  | .node cs => .obj (embedL cs)

/-- `embedT` on a children list. -/
def embedL : List (Str × PTree) → List (Str × RTree)
  | [] => []
  | (k, t) :: rest => (k, embedT t) :: embedL rest
end

mutual
theorem removeHashes_clean_sorted (t : PTree) (p : Str) :
    cleanKeys t = true → sortedChildren t = true →
    removeHashes t p = .ok (embedT t) := by
  cases t with
  | leaf v => intro _ _; rw [removeHashes, embedT]
  | node cs =>
    intro hc hs
    rw [cleanKeys] at hc
    rw [sortedChildren] at hs
    obtain ⟨hwalk, -⟩ := removeHashesWalk_clean_sorted cs p
    obtain ⟨V, T, hw, hVT⟩ := hwalk hc hs
    rw [removeHashes, hw, afterWalk]
    simp only [assembleNode]
    rw [if_neg (by simp)]
    rw [embedT, ← hVT]

theorem removeHashesWalk_clean_sorted (cs : List (Str × PTree)) (p : Str) :
    (cleanKeysL cs = true → sortedL cs = true →
      ∃ V T, removeHashesWalk cs p = .ok (V, T, []) ∧
        V.map (fun e => (e.1, RTree.leaf e.2)) ++ T = embedL cs) ∧
    (cleanKeysL cs = true → restNodes cs = true →
      removeHashesWalk cs p = .ok ([], embedL cs, [])) := by
  match cs with
  | [] =>
    refine ⟨fun _ _ => ⟨[], [], ?_, ?_⟩, fun _ _ => ?_⟩
    · rw [removeHashesWalk]
    · rw [embedL]; rfl
    · rw [removeHashesWalk, embedL]
  | (k, t) :: rest =>
    obtain ⟨ihS, ihN⟩ := removeHashesWalk_clean_sorted rest p
    cases t with
    | leaf v =>
      constructor
      · intro hc hs
        rw [cleanKeysL] at hc
        rw [sortedL] at hs
        obtain ⟨V, T, hw, hVT⟩ := ihS (by
          have := hc; simp only [Bool.and_eq_true] at this; exact this.2) hs
        refine ⟨(k, v) :: V, T, ?_, ?_⟩
        · rw [removeHashesWalk, hw, walkStepLeaf]
        · rw [embedL, embedT, ← hVT]; rfl
      · intro _ hn
        rw [restNodes] at hn
        exact absurd hn (by simp)
    | node cs2 =>
      constructor
      · intro hc hs
        rw [cleanKeysL] at hc
        simp only [Bool.and_eq_true] at hc
        obtain ⟨⟨⟨⟨hnb, hnh⟩, hne⟩, hcc⟩, hcr⟩ := hc
        rw [sortedL] at hs
        simp only [Bool.and_eq_true] at hs
        obtain ⟨hsc, hrn⟩ := hs
        have hchild := removeHashes_clean_sorted (.node cs2) (p ++ str "." ++ k) hcc hsc
        have hrest := ihN hcr hrn
        have hkneg : ¬ isHashKey k = true := by
          simp only [Bool.not_eq_true'] at hnh
          simp [hnh]
        refine ⟨[], (k, embedT (.node cs2)) :: embedL rest, ?_, ?_⟩
        · rw [removeHashesWalk, if_neg hkneg, hchild, hrest, walkStepPlain]
        · rw [embedL]; rfl
      · intro hc hn
        rw [cleanKeysL] at hc
        simp only [Bool.and_eq_true] at hc
        obtain ⟨⟨⟨⟨hnb, hnh⟩, hne⟩, hcc⟩, hcr⟩ := hc
        rw [restNodes] at hn
        simp only [Bool.and_eq_true] at hn
        obtain ⟨hsc, hrn⟩ := hn
        have hchild := removeHashes_clean_sorted (.node cs2) (p ++ str "." ++ k) hcc hsc
        have hrest := ihN hcr hrn
        have hkneg : ¬ isHashKey k = true := by
          simp only [Bool.not_eq_true'] at hnh
          simp [hnh]
        rw [removeHashesWalk, if_neg hkneg, hchild, hrest, walkStepPlain, embedL]
end

/-! Decidable equality for `RTree` (the deriving handler does not support
nested inductives). -/

mutual
/-- Boolean equality on results. -/
def beqT : RTree → RTree → Bool
  | .leaf v, .leaf w => v = w
  | .leaf _, .obj _ => false
  | .leaf _, .arr _ => false
  | .obj _, .leaf _ => false
  | .obj cs, .obj ds => beqKV cs ds
  | .obj _, .arr _ => false
  | .arr _, .leaf _ => false
  | .arr _, .obj _ => false
  | .arr xs, .arr ys => beqL xs ys

/-- Boolean equality on key-result lists. -/
def beqKV : List (Str × RTree) → List (Str × RTree) → Bool
  | [], [] => true
  | [], _ :: _ => false
  | _ :: _, [] => false
  | (k, t) :: rest, (k2, t2) :: rest2 => k = k2 && beqT t t2 && beqKV rest rest2

/-- Boolean equality on result lists. -/
def beqL : List RTree → List RTree → Bool
  | [], [] => true
  | [], _ :: _ => false
  | _ :: _, [] => false
  | t :: rest, t2 :: rest2 => beqT t t2 && beqL rest rest2
end

mutual
theorem beqT_iff (a b : RTree) : beqT a b = true ↔ a = b := by
  cases a with
  | leaf v =>
    cases b with
    | leaf w => rw [beqT]; simp
    | obj ds => rw [beqT]; simp
    | arr ys => rw [beqT]; simp
  | obj cs =>
    cases b with
    | leaf w => rw [beqT]; simp
    | obj ds => rw [beqT, beqKV_iff]; simp
    | arr ys => rw [beqT]; simp
  | arr xs =>
    cases b with
    | leaf w => rw [beqT]; simp
    | obj ds => rw [beqT]; simp
    | arr ys => rw [beqT, beqL_iff]; simp

theorem beqKV_iff (a b : List (Str × RTree)) : beqKV a b = true ↔ a = b := by
  match a, b with
  | [], [] => rw [beqKV]; simp
  | [], (k2, t2) :: rest2 => rw [beqKV]; simp
  | (k, t) :: rest, [] => rw [beqKV]; simp
  | (k, t) :: rest, (k2, t2) :: rest2 =>
    rw [beqKV]
    simp only [Bool.and_eq_true, decide_eq_true_eq, beqT_iff t t2, beqKV_iff rest rest2]
    constructor
    · rintro ⟨⟨rfl, rfl⟩, rfl⟩; rfl
    · intro h
      injection h with h1 h2
      injection h1 with h3 h4
      exact ⟨⟨h3, h4⟩, h2⟩

theorem beqL_iff (a b : List RTree) : beqL a b = true ↔ a = b := by
  match a, b with
  | [], [] => rw [beqL]; simp
  | [], t2 :: rest2 => rw [beqL]; simp
  | t :: rest, [] => rw [beqL]; simp
  | t :: rest, t2 :: rest2 =>
    rw [beqL]
    simp only [Bool.and_eq_true, beqT_iff t t2, beqL_iff rest rest2]
    constructor
    · rintro ⟨rfl, rfl⟩; rfl
    · intro h; injection h with h1 h2; exact ⟨h1, h2⟩

end

instance : DecidableEq RTree := fun a b => decidable_of_iff _ (beqT_iff a b)

/-- C7 counterexample: a tree with no `[]` and no fingerprint-token keys on
which `removeHashes` succeeds but reorders the node (scalar child `a` is
moved in front of the nested child `b`), so the result is not equal to the
input. -/
theorem removeHashes_not_idempotent :
    cleanKeys (PTree.node [(str "b", .node [(str "c", .leaf (.vInt 1))]),
      (str "a", .leaf (.vInt 2))]) = true ∧
    removeHashes (PTree.node [(str "b", .node [(str "c", .leaf (.vInt 1))]),
      (str "a", .leaf (.vInt 2))]) (str "$") =
      .ok (.obj [(str "a", .leaf (.vInt 2)), (str "b", .obj [(str "c", .leaf (.vInt 1))])]) ∧
    removeHashes (PTree.node [(str "b", .node [(str "c", .leaf (.vInt 1))]),
      (str "a", .leaf (.vInt 2))]) (str "$") ≠
      .ok (embedT (PTree.node [(str "b", .node [(str "c", .leaf (.vInt 1))]),
        (str "a", .leaf (.vInt 2))])) := by
  decide

/-- C7 (amended): on a tree whose keys contain no `[]` and are not
fingerprint tokens (nested-child keys non-empty, as Go panics otherwise),
and in which every node lists its scalar leaves before its nested children,
`removeHashes` succeeds and returns the tree unchanged, key order included. -/
theorem removeHashes_idempotent_on_sorted (t : PTree) (p : Str)
    (hclean : cleanKeys t = true) (hsorted : sortedChildren t = true) :
    removeHashes t p = .ok (embedT t) :=
  removeHashes_clean_sorted t p hclean hsorted

/-- Witness for the amended C7 at a concrete already-resolved tree. -/
theorem removeHashes_idempotent_on_sorted_witness :
    cleanKeys (PTree.node [(str "a", .leaf (.vInt 2)),
      (str "b", .node [(str "c", .leaf (.vInt 1))])]) = true ∧
    sortedChildren (PTree.node [(str "a", .leaf (.vInt 2)),
      (str "b", .node [(str "c", .leaf (.vInt 1))])]) = true ∧
    removeHashes (PTree.node [(str "a", .leaf (.vInt 2)),
      (str "b", .node [(str "c", .leaf (.vInt 1))])]) (str "$") =
      .ok (embedT (PTree.node [(str "a", .leaf (.vInt 2)),
        (str "b", .node [(str "c", .leaf (.vInt 1))])])) :=
  ⟨by decide, by decide,
   removeHashes_idempotent_on_sorted
     (PTree.node [(str "a", .leaf (.vInt 2)), (str "b", .node [(str "c", .leaf (.vInt 1))])])
     (str "$") (by decide) (by decide)⟩

/-!
## Claims C2, C3: the cardinality resolver (src/path_inference.go)
-/

/-- One equality predicate of a join condition (`JoinColumn`). -/
structure JoinColumn where
  leftAlias : Str
  leftColumn : Str
  rightAlias : Str
  rightColumn : Str
deriving DecidableEq, Repr

/-- One join (`JoinInfo`); `condition` is the raw text, `onColumns` the
parsed equality predicates. -/
structure JoinInfo where
  leftAlias : Str
  leftTable : Str
  rightAlias : Str
  rightTable : Str
  joinType : Str
  condition : Str
  onColumns : List JoinColumn
deriving DecidableEq, Repr

/-- A schema foreign key (`ForeignKey`, src/metadata.go). -/
structure ForeignKey where
  fromTable : Str
  fromColumn : Str
  toTable : Str
  toColumn : Str
deriving DecidableEq, Repr

/-- Whether an alias appears as the right side of some join. -/
def joinedRight (joins : List JoinInfo) (al : Str) : Bool :=
  joins.any (fun j => j.rightAlias = al)

/-- The root-alias search of `buildCardinalityMap` (src/path_inference.go
lines 52-65): the first alias, in map-iteration order `aliases`, that is not
the right side of any join; `""` if none. -/
def findRootAlias (aliases : List Str) (joins : List JoinInfo) : Str :=
  match aliases.find? (fun al => !joinedRight joins al) with
  | some al => al
  | none => []

/-- The root-flag table of `buildCardinalityMap` (src/path_inference.go lines
86-103): from the root's hint entry and the joins. -/
def rootFlagFromHint (hintOpt : Option Str) (joins : List JoinInfo) : Bool :=
  match hintOpt with
  | some hp =>
    if (str "[]").isSuffixOf hp then true
    else if hp = str "$" then false
    else decide (0 < joins.length)
  | none => true

/-- The `$`-hint special case of `buildCardinalityMap` (src/path_inference.go
lines 67-76): a hint for the synthetic alias `$` is copied onto the root
alias (which becomes `$` itself when no real root exists). -/
def rootAfterDollarHint (aliases : List Str) (joins : List JoinInfo) (hints : OMap Str) :
    Str × OMap Str :=
  let root0 := findRootAlias aliases joins
  match omGet hints (str "$") with
  | some hp =>
    let root1 := if root0.isEmpty then str "$" else root0
    (root1, omSet hints root1 hp)
  | none => (root0, hints)

/-- The root part of `buildCardinalityMap` (src/path_inference.go lines
52-103): `none` when no root alias exists and no `$` hint is given (the code
then sets no root flag). -/
def buildRootCardinality (aliases : List Str) (joins : List JoinInfo) (hints : OMap Str) :
    Option (Str × Bool) :=
  let rh := rootAfterDollarHint aliases joins hints
  if rh.1.isEmpty then none
  else some (rh.1, rootFlagFromHint (omGet rh.2 rh.1) joins)

theorem omGet_omSet_self {α : Type} (m : OMap α) (k : Str) (v : α) :
    omGet (omSet m k v) k = some v := by
  induction m with
  | nil => simp [omSet, omGet]
  | cons e rest ih =>
    obtain ⟨k2, v2⟩ := e
    by_cases h : k2 = k
    · subst h; simp [omSet, omGet]
    · simp only [omSet, if_neg h]
      simpa [omGet, List.find?, h] using ih

/-- The hint governing the root flag: the `$` hint when present (it
overwrites the root's entry), else the root's own hint. -/
def effectiveRootHint (hints : OMap Str) (root : Str) : Option Str :=
  match omGet hints (str "$") with
  | some hp => some hp
  | none => omGet hints root

/-- C2: for a query with a root alias (an alias never on the right side of
any join), the root's cardinality flag is computed from the root's effective
path hint: array if it ends in `[]`; object if it is exactly `$`; for any
other hint, array exactly when at least one join exists; and array when
there is no hint at all, joins or not. -/
theorem buildRootCardinality_cases (aliases : List Str) (joins : List JoinInfo)
    (hints : OMap Str) (root : Str)
    (hroot : findRootAlias aliases joins = root) (hne : root.isEmpty = false) :
    buildRootCardinality aliases joins hints =
      some (root, rootFlagFromHint (effectiveRootHint hints root) joins) ∧
    (∀ hp, effectiveRootHint hints root = some hp →
      (((str "[]").isSuffixOf hp = true →
          rootFlagFromHint (effectiveRootHint hints root) joins = true) ∧
       ((str "[]").isSuffixOf hp = false → hp = str "$" →
          rootFlagFromHint (effectiveRootHint hints root) joins = false) ∧
       ((str "[]").isSuffixOf hp = false → hp ≠ str "$" →
          (rootFlagFromHint (effectiveRootHint hints root) joins = true ↔ joins ≠ [])))) ∧
    (effectiveRootHint hints root = none →
      rootFlagFromHint (effectiveRootHint hints root) joins = true) := by
  refine ⟨?_, ?_, ?_⟩
  · cases hd : omGet hints (str "$") with
    | some hpd =>
      have hif : (if (findRootAlias aliases joins).isEmpty then str "$"
          else findRootAlias aliases joins) = root := by
        rw [hroot, hne]; simp
      simp only [buildRootCardinality, rootAfterDollarHint, hd, hroot, hne]
      simp only [hne, Bool.false_eq_true, if_false, hif]
      rw [effectiveRootHint, hd, omGet_omSet_self]
    | none =>
      simp only [buildRootCardinality, rootAfterDollarHint, hd, hroot]
      rw [effectiveRootHint, hd]
      simp [hne]
  · intro hp hhp
    rw [hhp]
    refine ⟨?_, ?_, ?_⟩
    · intro hsuf
      simp [rootFlagFromHint, hsuf]
    · intro hsuf hd
      subst hd
      rfl
    · intro hsuf hd
      simp only [rootFlagFromHint, hsuf, Bool.false_eq_true, if_false, if_neg hd]
      constructor
      · intro hb hj
        rw [hj] at hb; simp at hb
      · intro hj
        simp only [decide_eq_true_eq]
        cases joins with
        | nil => exact absurd rfl hj
        | cons a b => simp
  · intro hnone
    rw [hnone]
    simp [rootFlagFromHint]

/-- Witness for C2: one table `p` with hint `$.x` and one join: the root
flag is array because a join exists. -/
theorem buildRootCardinality_cases_witness :
    findRootAlias [str "p", str "c"]
      [⟨str "p", str "posts", str "c", str "comments", str "LEFT", str "", []⟩] = str "p" ∧
    (str "p").isEmpty = false ∧
    (buildRootCardinality [str "p", str "c"]
      [⟨str "p", str "posts", str "c", str "comments", str "LEFT", str "", []⟩]
      [(str "p", str "$.x")] =
      some (str "p", rootFlagFromHint (effectiveRootHint [(str "p", str "$.x")] (str "p"))
        [⟨str "p", str "posts", str "c", str "comments", str "LEFT", str "", []⟩])) ∧
    rootFlagFromHint (effectiveRootHint [(str "p", str "$.x")] (str "p"))
      [⟨str "p", str "posts", str "c", str "comments", str "LEFT", str "", []⟩] = true :=
  ⟨by decide, by decide,
   (buildRootCardinality_cases [str "p", str "c"]
      [⟨str "p", str "posts", str "c", str "comments", str "LEFT", str "", []⟩]
      [(str "p", str "$.x")] (str "p") (by decide) (by decide)).1,
   by decide⟩

/-- `LEFT`/`LEFT OUTER` join kind. -/
def isLeftKind (j : JoinInfo) : Bool :=
  j.joinType = str "LEFT" || j.joinType = str "LEFT OUTER"

/-- The inner foreign-key loop of `isOneToManyJoin` (src/path_inference.go
lines 132-151) for one predicate: the first foreign key that matches decides
— `true` (one-to-many) when the right table has a FK to the left table whose
from-column matches the predicate on the right alias's side, `false`
(many-to-one) when the left table has a FK to the right table matching on
the left alias's side; for each foreign key the one-to-many check comes
first. -/
def fkDecision (j : JoinInfo) (jc : JoinColumn) : List ForeignKey → Option Bool
  | [] => none
  | fk :: rest =>
    if fk.fromTable = j.rightTable ∧ fk.toTable = j.leftTable ∧
       ((jc.rightAlias = j.rightAlias ∧ jc.rightColumn = fk.fromColumn) ∨
        (jc.leftAlias = j.rightAlias ∧ jc.leftColumn = fk.fromColumn)) then some true
    else if fk.fromTable = j.leftTable ∧ fk.toTable = j.rightTable ∧
       ((jc.leftAlias = j.leftAlias ∧ jc.leftColumn = fk.fromColumn) ∨
        (jc.rightAlias = j.leftAlias ∧ jc.rightColumn = fk.fromColumn)) then some false
    else fkDecision j jc rest

/-- The outer predicate loop of `isOneToManyJoin`: predicates in order, the
first one with a foreign-key decision returns it; after the loop, `LEFT`
joins default to array. -/
def scanPredicates (j : JoinInfo) (allFKs : List ForeignKey) : List JoinColumn → Bool
  | [] => isLeftKind j
  | jc :: rest =>
    match fkDecision j jc allFKs with
    | some b => b
    | none => scanPredicates j allFKs rest

/-- `isOneToManyJoin` (src/path_inference.go lines 124-156). -/
def isOneToManyJoin (j : JoinInfo) (allFKs : List ForeignKey) : Bool :=
  if j.onColumns.length = 0 then isLeftKind j
  else scanPredicates j allFKs j.onColumns

/-- The counterexample join for C3: `a JOIN b ON a.x = b.y`, inner kind. -/
def cexJoin : JoinInfo :=
  ⟨str "a", str "a", str "b", str "b", str "INNER", str "",
   [⟨str "a", str "x", str "b", str "y"⟩]⟩

/-- The counterexample foreign keys for C3: a left-to-right FK listed before
a right-to-left FK, both matching the single predicate. -/
def cexFKs : List ForeignKey :=
  [⟨str "a", str "x", str "b", str "k"⟩, ⟨str "b", str "y", str "a", str "k"⟩]

/-- C3 counterexample: some foreign key goes from the right table to the
left table and matches the predicate on the right side (so the claim says
the right alias is an array), yet the code returns `false` (object): the
left-to-right FK appears earlier in the list and wins. -/
theorem isOneToManyJoin_priority_counterexample :
    cexFKs.any (fun fk => fk.fromTable = cexJoin.rightTable ∧ fk.toTable = cexJoin.leftTable ∧
      cexJoin.onColumns.any (fun jc =>
        (jc.rightAlias = cexJoin.rightAlias ∧ jc.rightColumn = fk.fromColumn) ∨
        (jc.leftAlias = cexJoin.rightAlias ∧ jc.leftColumn = fk.fromColumn))) = true ∧
    cexJoin.onColumns.length ≥ 1 ∧
    isOneToManyJoin cexJoin cexFKs = false := by
  decide

/-- C3 (amended): for a join with parsed predicates, the scan runs predicate
by predicate in order, and per predicate over the foreign keys in list order
with the one-to-many check before the many-to-one check; the first matching
pair decides (array on a right-to-left FK match, object on a left-to-right
FK match); with no match at all, array exactly for LEFT/LEFT OUTER.  Stated
as: the result is the first `fkDecision` found over the predicates in order,
defaulting to the LEFT-kind test. -/
theorem isOneToManyJoin_first_match (j : JoinInfo) (allFKs : List ForeignKey) :
    isOneToManyJoin j allFKs =
      (j.onColumns.findSome? (fun jc => fkDecision j jc allFKs)).getD (isLeftKind j) := by
  rw [isOneToManyJoin]
  have hgo : ∀ cols : List JoinColumn, scanPredicates j allFKs cols =
      (cols.findSome? (fun jc => fkDecision j jc allFKs)).getD (isLeftKind j) := by
    intro cols
    induction cols with
    | nil => rw [scanPredicates]; rfl
    | cons jc rest ih =>
      rw [scanPredicates, List.findSome?_cons]
      cases fkDecision j jc allFKs with
      | some b => rfl
      | none => exact ih
  by_cases h : j.onColumns.length = 0
  · rw [if_pos h]
    have : j.onColumns = [] := List.length_eq_zero.mp h
    rw [this]
    rfl
  · rw [if_neg h, hgo]

/-!
## Claim C8: `convertBytes` (src/README.md lines 205-228)

`convertBytes` tries `fmt.Sscanf(s, "%d", &i)` with `i int64` plus an exact
`fmt.Sprintf("%d", i) == s` round-trip check for integers, then
`fmt.Sscanf(s, "%f", &f)` with `f float64` (no round-trip check!) plus a
`strings.Contains(s, ".")` test for floats, else returns the text.
`Sscanf` skips leading blanks and ignores unconsumed trailing input, but a
scanned token outside the destination's range makes `strconv.ParseInt` /
`strconv.ParseFloat` return `ErrRange` and the `Sscanf` error: an integer
token beyond `int64`, or a float token at or beyond the decimal threshold
where `float64` rounds to infinity, falls through to the next branch.
The float's numeric value is represented by its scanned token (float64
rounding of in-range values is out of scope; only the result kind and the
token matter). -/

/-- Leading blanks skipped by `Sscanf` verbs. -/
def skipSpaces (s : Str) : Str := s.dropWhile (fun c => c = ' ' || c = '\t')

/-- Maximal leading digit run and the rest. -/
def takeDigits (s : Str) : Str × Str := (s.takeWhile Char.isDigit, s.dropWhile Char.isDigit)

/-- Numeric value of a digit run. -/
def digitsToNat (ds : Str) : Nat := ds.foldl (fun acc c => acc * 10 + (c.toNat - 48)) 0

/-- Split an optional leading sign: (negative?, rest). -/
def splitSign (s : Str) : Bool × Str :=
  match s with
  | [] => (false, [])
  | c :: rest =>
    if c = '-' then (true, rest)
    else if c = '+' then (false, rest)
    else (false, c :: rest)

/-- `math.MinInt64`, the smallest `int64` (`-2^63`). -/
def int64Min : Int := -9223372036854775808

/-- `math.MaxInt64`, the largest `int64` (`2^63 - 1`). -/
def int64Max : Int := 9223372036854775807

/-- `fmt.Sscanf(s, "%d", &i)` with `i int64`: skip blanks, optional sign, at
least one digit; trailing input is ignored (Sscanf does not require full
consumption).  The scanned token is converted with
`strconv.ParseInt(tok, 10, 64)`, which fails with `ErrRange` outside the
`int64` range, making the whole scan error. -/
def scanInt (s : Str) : Option Int :=
  let s1 := skipSpaces s
  let sg := splitSign s1
  let ds := (takeDigits sg.2).1
  if ds.isEmpty then none
  else
    let v : Int := if sg.1 then -(digitsToNat ds : Int) else (digitsToNat ds : Int)
    if v < int64Min || int64Max < v then none else some v

/-- Decimal digits of `n`, most significant first (`fuel`-structured so that
it evaluates in the kernel; any `fuel > n` is enough). -/
def natReprAux : Nat → Nat → Str
  | 0, _ => []
  | fuel + 1, n =>
    if n < 10 then [Char.ofNat (48 + n)]
    else natReprAux fuel (n / 10) ++ [Char.ofNat (48 + n % 10)]

/-- Decimal representation of a natural number. -/
def natRepr (n : Nat) : Str := natReprAux (n + 1) n

/-- `fmt.Sprintf("%d", i)`: canonical decimal form, `-` for negatives. -/
def canonInt (i : Int) : Str :=
  if i < 0 then '-' :: natRepr i.natAbs else natRepr i.toNat

theorem digitsToNat_append_digit (ds : Str) (c : Char) :
    digitsToNat (ds ++ [c]) = digitsToNat ds * 10 + (c.toNat - 48) := by
  simp [digitsToNat, List.foldl_append]

theorem natReprAux_spec (fuel : Nat) :
    ∀ n, n < fuel →
      ((natReprAux fuel n).all Char.isDigit = true ∧ natReprAux fuel n ≠ []) ∧
      digitsToNat (natReprAux fuel n) = n := by
  induction fuel with
  | zero => intro n h; omega
  | succ m ih =>
    intro n h
    by_cases h10 : n < 10
    · rw [natReprAux, if_pos h10]
      refine ⟨⟨?_, by simp⟩, ?_⟩
      · simp only [List.all_cons, List.all_nil, Bool.and_true]
        interval_cases n <;> decide
      · simp only [digitsToNat, List.foldl]
        have : (Char.ofNat (48 + n)).toNat = 48 + n := by interval_cases n <;> decide
        omega
    · rw [natReprAux, if_neg h10]
      have hdiv : n / 10 < m := by
        have h1 : n / 10 < n := Nat.div_lt_self (by omega) (by omega)
        omega
      obtain ⟨⟨ha, hne⟩, hd⟩ := ih (n / 10) hdiv
      have hmod : n % 10 < 10 := Nat.mod_lt n (by omega)
      have hc : (Char.ofNat (48 + n % 10)).toNat = 48 + n % 10 := by
        set k := n % 10 with hk
        interval_cases k <;> decide
      have hcd : (Char.ofNat (48 + n % 10)).isDigit = true := by
        set k := n % 10 with hk
        interval_cases k <;> decide
      refine ⟨⟨?_, by simp⟩, ?_⟩
      · rw [List.all_append]
        simp [ha, hcd]
      · rw [digitsToNat_append_digit, hd, hc]
        omega

theorem natRepr_spec (n : Nat) :
    ((natRepr n).all Char.isDigit = true ∧ natRepr n ≠ []) ∧
      digitsToNat (natRepr n) = n :=
  natReprAux_spec (n + 1) n (by omega)

theorem digit_not_special (c : Char) (h : c.isDigit = true) :
    c ≠ '-' ∧ c ≠ '+' ∧ (c = ' ' || c = '\t') = false := by
  refine ⟨?_, ?_, ?_⟩
  · intro hc; rw [hc] at h; exact absurd h (by decide)
  · intro hc; rw [hc] at h; exact absurd h (by decide)
  · by_cases hsp : c = ' '
    · rw [hsp] at h; exact absurd h (by decide)
    · by_cases htb : c = '\t'
      · rw [htb] at h; exact absurd h (by decide)
      · simp [hsp, htb]

theorem takeWhile_all_eq {p : Char → Bool} (l : Str) (h : l.all p = true) :
    l.takeWhile p = l := by
  induction l with
  | nil => rfl
  | cons c rest ih =>
    simp only [List.all_cons, Bool.and_eq_true] at h
    rw [List.takeWhile_cons, if_pos h.1, ih h.2]

theorem isEmpty_false_of_ne {α : Type} (l : List α) (h : l ≠ []) : l.isEmpty = false := by
  cases l with
  | nil => exact absurd rfl h
  | cons a b => rfl

/-- Scanning the canonical decimal form of an in-range `i` recovers `i`. -/
theorem scanInt_canon (i : Int) (hlo : int64Min ≤ i) (hhi : i ≤ int64Max) :
    scanInt (canonInt i) = some i := by
  by_cases hneg : i < 0
  · obtain ⟨⟨hall, hne⟩, hval⟩ := natRepr_spec i.natAbs
    rw [canonInt, if_pos hneg]
    have hskip : skipSpaces ('-' :: natRepr i.natAbs) = '-' :: natRepr i.natAbs := by
      rw [skipSpaces, List.dropWhile_cons]
      simp
    have hsign : splitSign ('-' :: natRepr i.natAbs) = (true, natRepr i.natAbs) := by
      rw [splitSign]; simp
    have hemp : (natRepr i.natAbs).isEmpty = false := isEmpty_false_of_ne _ hne
    simp only [scanInt, hskip, hsign, takeDigits, takeWhile_all_eq _ hall]
    rw [hemp]
    simp only [Bool.false_eq_true, if_false, if_true, hval]
    have habs : -((i.natAbs : Int)) = i := by omega
    rw [habs, if_neg ?hc1]
    case hc1 =>
      simp only [Bool.or_eq_true, decide_eq_true_eq, int64Min, int64Max, not_or, not_lt]
      simp only [int64Min, int64Max] at hlo hhi
      omega
  · obtain ⟨⟨hall, hne⟩, hval⟩ := natRepr_spec i.toNat
    rw [canonInt, if_neg hneg]
    obtain ⟨c, rest, hcr⟩ : ∃ c rest, natRepr i.toNat = c :: rest := by
      cases hh : natRepr i.toNat with
      | nil => exact absurd hh hne
      | cons a b => exact ⟨a, b, rfl⟩
    have hcd : c.isDigit = true := by
      have h2 := hall
      rw [hcr] at h2
      simp only [List.all_cons, Bool.and_eq_true] at h2
      exact h2.1
    obtain ⟨hm, hp, hsp⟩ := digit_not_special c hcd
    have hskip : skipSpaces (natRepr i.toNat) = natRepr i.toNat := by
      rw [hcr, skipSpaces, List.dropWhile_cons, hsp]
      simp
    have hsign : splitSign (natRepr i.toNat) = (false, natRepr i.toNat) := by
      rw [hcr, splitSign, if_neg hm, if_neg hp]
    have hemp : (natRepr i.toNat).isEmpty = false := isEmpty_false_of_ne _ hne
    simp only [scanInt, hskip, hsign, takeDigits, takeWhile_all_eq _ hall]
    rw [hemp]
    simp only [Bool.false_eq_true, if_false, hval]
    have htn : ((i.toNat : Nat) : Int) = i := by omega
    rw [htn, if_neg ?hc2]
    case hc2 =>
      simp only [Bool.or_eq_true, decide_eq_true_eq, int64Min, int64Max, not_or, not_lt]
      simp only [int64Min, int64Max] at hlo hhi
      omega

/-- `scanInt` only returns `int64`-range values. -/
theorem scanInt_range (s : Str) (i : Int) (h : scanInt s = some i) :
    int64Min ≤ i ∧ i ≤ int64Max := by
  simp only [scanInt] at h
  split at h
  · exact absurd h (by simp)
  · split at h
    all_goals split at h
    · exact absurd h (by simp)
    · rename_i hcond
      simp only [Option.some.injEq] at h
      subst h
      simp only [Bool.or_eq_true, decide_eq_true_eq, not_or, not_lt] at hcond
      exact ⟨hcond.1, hcond.2⟩
    · exact absurd h (by simp)
    · rename_i hcond
      simp only [Option.some.injEq] at h
      subst h
      simp only [Bool.or_eq_true, decide_eq_true_eq, not_or, not_lt] at hcond
      exact ⟨hcond.1, hcond.2⟩

/-- No in-range integer has `s` as canonical form exactly when the integer
branch of `convertBytes` does not fire. -/
theorem canon_form_iff (s : Str) :
    (∃ i, int64Min ≤ i ∧ i ≤ int64Max ∧ s = canonInt i) ↔
      (∃ i, scanInt s = some i ∧ canonInt i = s) := by
  constructor
  · rintro ⟨i, hlo, hhi, rfl⟩
    exact ⟨i, scanInt_canon i hlo hhi, rfl⟩
  · rintro ⟨i, hsc, hc⟩
    obtain ⟨hlo, hhi⟩ := scanInt_range s i hsc
    exact ⟨i, hlo, hhi, hc.symm⟩

/-- The prefix a bare column inherits: that of the most recent preceding
`$`-column containing a dot, `$[]` by default. -/
def inheritedPrefix (cols : List Str) : Str :=
  cols.foldl (fun acc c => if dottedDollar c then hintPrefix c else acc) (str "$[]")

theorem getPaths_go_spec (cols : List Str) : ∀ (p0 : Str) (i : Nat), i < cols.length →
    (getPaths.go p0 cols).getD i [] =
      (if dottedDollar (cols.getD i []) then
        hintPrefix (cols.getD i []) ++ str "." ++ lastProp (cols.getD i [])
       else
        (cols.take i).foldl (fun acc c => if dottedDollar c then hintPrefix c else acc) p0 ++
          str "." ++ cols.getD i []) := by
  induction cols with
  | nil => intro p0 i h; exact absurd h (by simp)
  | cons c rest ih =>
    intro p0 i h
    by_cases hd : dottedDollar c = true
    · rw [getPaths.go, if_pos hd]
      cases i with
      | zero => simp [hd]
      | succ j =>
        have hj : j < rest.length := by simpa using h
        have := ih (hintPrefix c) j hj
        simp only [List.getD_cons_succ, List.take_succ_cons, List.foldl_cons, if_pos hd]
        exact this
    · have hd2 : dottedDollar c = false := by
        cases h2 : dottedDollar c
        · rfl
        · exact absurd h2 hd
      rw [getPaths.go, if_neg hd]
      cases i with
      | zero => simp [hd2]
      | succ j =>
        have hj : j < rest.length := by simpa using h
        have := ih p0 j hj
        simp only [List.getD_cons_succ, List.take_succ_cons, List.foldl_cons, hd2,
          Bool.false_eq_true, if_false]
        exact this

theorem getPaths_go_length (cols : List Str) : ∀ p0, (getPaths.go p0 cols).length = cols.length := by
  induction cols with
  | nil => intro p0; rfl
  | cons c rest ih =>
    intro p0
    by_cases hd : dottedDollar c = true
    · rw [getPaths.go, if_pos hd]
      simp [ih]
    · rw [getPaths.go, if_neg hd]
      simp [ih]

/-- C9: `getPaths` is stateful across columns.  A column starting with `$`
and containing a `.` is assigned the prefix before its last `.` (plus its
final segment); every other column inherits the prefix established by the
most recent preceding dotted `$`-column, or the default `$[]`, and is
appended to it as a property.  The non-emptiness hypothesis is the Go
panic scope (`column[0:1]`). -/
theorem getPaths_stateful_prefix (columns : List Str)
    (hne : ∀ c ∈ columns, c ≠ []) :
    (getPaths columns).length = columns.length ∧
    ∀ i, i < columns.length →
      (getPaths columns).getD i [] =
        (if dottedDollar (columns.getD i []) then
          hintPrefix (columns.getD i []) ++ str "." ++ lastProp (columns.getD i [])
         else inheritedPrefix (columns.take i) ++ str "." ++ columns.getD i []) := by
  refine ⟨getPaths_go_length columns (str "$[]"), ?_⟩
  intro i hi
  exact getPaths_go_spec columns (str "$[]") i hi

/-- Witness for C9: the claim's own example — a bare column `comments`
following `$.stats.posts` is placed at `$.stats.comments`. -/
theorem getPaths_stateful_prefix_witness :
    ((∀ c ∈ [str "$.stats.posts", str "comments"], c ≠ []) ∧
     ((getPaths [str "$.stats.posts", str "comments"]).length = 2 ∧
      ∀ i, i < ([str "$.stats.posts", str "comments"] : List Str).length →
        (getPaths [str "$.stats.posts", str "comments"]).getD i [] =
          (if dottedDollar (([str "$.stats.posts", str "comments"] : List Str).getD i []) then
            hintPrefix (([str "$.stats.posts", str "comments"] : List Str).getD i []) ++
              str "." ++ lastProp (([str "$.stats.posts", str "comments"] : List Str).getD i [])
           else inheritedPrefix (([str "$.stats.posts", str "comments"] : List Str).take i) ++
              str "." ++ ([str "$.stats.posts", str "comments"] : List Str).getD i []))) ∧
    getPaths [str "$.stats.posts", str "comments"] =
      [str "$.stats.posts", str "$.stats.comments"] :=
  ⟨⟨by decide, getPaths_stateful_prefix [str "$.stats.posts", str "comments"] (by decide)⟩,
   by decide⟩

/-!
## Claim C10: determinism of the reconstruction pipeline

`addHashes` enumerates its key-rewriting table from an unordered Go map and
sorts with `sort.Sort(ByRevLen(...))` — an unstable sort by descending
length only.  Two mapping keys of equal length may therefore be applied in
either order, and overlapping occurrences make the outputs differ.
-/

/-- The C10 record: grouped keys `.r[].aa[].b[].c[]` (length 17) and the
equal-length pair `.r[].aa[]` / `.aa[].b[]` (length 9), which overlap inside
the first one. -/
def recC10 : OMap JValue :=
  [(str ".r[].aa[].b[].c[].w", .vInt 1), (str ".r[].aa[].x", .vInt 2),
   (str ".aa[].b[].y", .vInt 3)]

/-- Replacement order A: the length-9 tie broken as `.r[].aa[]` first. -/
def ordA : List Str := [str ".r[].aa[].b[].c[]", str ".r[].aa[]", str ".aa[].b[]"]

/-- Replacement order B: the length-9 tie broken as `.aa[].b[]` first. -/
def ordB : List Str := [str ".r[].aa[].b[].c[]", str ".aa[].b[]", str ".r[].aa[]"]

set_option maxRecDepth 100000 in
/-- C10 counterexample: both orders are valid outcomes of the unstable
descending-length sort over the unordered mapping keys, yet the pipeline
outputs differ — the claim's determinism fails on length ties. -/
theorem reconstruct_order_dependent :
    validKeyOrder ordA (groupRecord (str "[]") recC10) ∧
    validKeyOrder ordB (groupRecord (str "[]") recC10) ∧
    reconstructWith [ordA] [recC10] ≠ reconstructWith [ordB] [recC10] := by
  refine ⟨⟨by decide, by decide⟩, ⟨by decide, by decide⟩, by decide⟩

instance : IsAntisymm Str (fun a b => b.length < a.length) :=
  ⟨fun _ _ h1 h2 => absurd h2 (by omega)⟩

theorem sortedPerm_unique (ks o1 o2 : List Str)
    (hp1 : o1.Perm ks) (hp2 : o2.Perm ks)
    (hs1 : o1.Pairwise (fun a b => b.length ≤ a.length))
    (hs2 : o2.Pairwise (fun a b => b.length ≤ a.length))
    (hd : ks.Pairwise (fun a b => a.length ≠ b.length)) : o1 = o2 := by
  have hd1 : o1.Pairwise (fun a b => a.length ≠ b.length) :=
    (hp1.pairwise_iff (fun h => h.symm)).mpr hd
  have hd2 : o2.Pairwise (fun a b => a.length ≠ b.length) :=
    (hp2.pairwise_iff (fun h => h.symm)).mpr hd
  have hstrict1 : o1.Pairwise (fun a b => b.length < a.length) :=
    (hs1.and hd1).imp (fun h => by omega)
  have hstrict2 : o2.Pairwise (fun a b => b.length < a.length) :=
    (hs2.and hd2).imp (fun h => by omega)
  exact List.eq_of_perm_of_sorted (hp1.trans hp2.symm) hstrict1 hstrict2

theorem ordsEq_of_valid : ∀ (G : List (OMap (OMap JValue))) (o1 o2 : List (List Str)),
    List.Forall₂ validKeyOrder o1 G → List.Forall₂ validKeyOrder o2 G →
    (∀ rec ∈ G, (omKeys (hashMapping rec)).Pairwise (fun a b => a.length ≠ b.length)) →
    o1 = o2 := by
  intro G
  induction G with
  | nil =>
    intro o1 o2 h1 h2 _
    cases h1
    cases h2
    rfl
  | cons g rest ih =>
    intro o1 o2 h1 h2 hd
    cases h1 with
    | cons hh1 ht1 =>
      cases h2 with
      | cons hh2 ht2 =>
        congr 1
        · exact sortedPerm_unique _ _ _ hh1.1 hh2.1 hh1.2 hh2.2 (hd g (by simp))
        · exact ih _ _ ht1 ht2 (fun rec hr => hd rec (by simp [hr]))

/-- C10 (amended): the pipeline is deterministic provided each record's
`[]`-ending keys have pairwise distinct lengths — then the descending-length
sort has a unique outcome and any two valid replacement orders coincide.
(The counterexample shows determinism fails on equal-length ties.) -/
theorem reconstruct_deterministic_distinct_lengths
    (records : List (OMap JValue)) (ords1 ords2 : List (List Str))
    (h1 : List.Forall₂ validKeyOrder ords1 (groupBySeparator records (str "[]")))
    (h2 : List.Forall₂ validKeyOrder ords2 (groupBySeparator records (str "[]")))
    (hd : ∀ rec ∈ groupBySeparator records (str "[]"),
      (omKeys (hashMapping rec)).Pairwise (fun a b => a.length ≠ b.length)) :
    reconstructWith ords1 records = reconstructWith ords2 records := by
  rw [ordsEq_of_valid (groupBySeparator records (str "[]")) ords1 ords2 h1 h2 hd]

/-- Witness for the amended C10 at a concrete single-record input with a
single mapping key. -/
theorem reconstruct_deterministic_distinct_lengths_witness :
    (List.Forall₂ validKeyOrder [[str "[]"]]
      (groupBySeparator [[(str "[].id", JValue.vInt 7)]] (str "[]")) ∧
     (∀ rec ∈ groupBySeparator [[(str "[].id", JValue.vInt 7)]] (str "[]"),
      (omKeys (hashMapping rec)).Pairwise (fun a b => a.length ≠ b.length))) ∧
    reconstructWith [[str "[]"]] [[(str "[].id", JValue.vInt 7)]] =
      reconstructWith [[str "[]"]] [[(str "[].id", JValue.vInt 7)]] := by
  have hg : groupBySeparator [[(str "[].id", JValue.vInt 7)]] (str "[]") =
      [[(str "[]", [(str ".id", JValue.vInt 7)])]] := by decide
  have hf : List.Forall₂ validKeyOrder [[str "[]"]]
      (groupBySeparator [[(str "[].id", JValue.vInt 7)]] (str "[]")) := by
    rw [hg]
    exact List.Forall₂.cons ⟨by decide, by decide⟩ List.Forall₂.nil
  have hd : ∀ rec ∈ groupBySeparator [[(str "[].id", JValue.vInt 7)]] (str "[]"),
      (omKeys (hashMapping rec)).Pairwise (fun a b => a.length ≠ b.length) := by
    intro rec hr
    rw [hg, List.mem_singleton] at hr
    subst hr
    decide
  exact ⟨⟨hf, hd⟩,
    reconstruct_deterministic_distinct_lengths [[(str "[].id", JValue.vInt 7)]]
      [[str "[]"]] [[str "[]"]] hf hf hd⟩

/-!
## Claim C6: the README `PathQuery` shortcut branches
(src/README.md lines 364-547)

The extended `PathQuery` has two shortcuts: a direct nested-object build
from `records[0]` when every path is object-shaped, and a flat per-record
array when no path contains `[]`.  The spec requires both to be
behavior-equivalent to the full pipeline.
-/

/-- Key stripping in the README `getAllRecords`: drop the leading `$`, and
drop a trailing `[]` from the final path segment. -/
def stripFinalBrackets (p : Str) : Str :=
  let parts := splitGo (str ".") p
  if parts.length ≥ 2 then
    if (str "[]").isSuffixOf (parts.getLastD []) then
      joinSep (str ".") parts.dropLast ++ str "." ++
        (parts.getLastD []).take ((parts.getLastD []).length - 2)
    else p
  else p

/-- A README record key for one path. -/
def readmeRecordKey (path : Str) : Str :=
  stripFinalBrackets (if (str "$").isPrefixOf path then path.drop 1 else path)

/-- One row of the README `getAllRecords` (cell values arrive already
typed; raw `[]byte` cells would go through `convertBytes` first). -/
def mkReadmeRecord (paths : List Str) (row : List JValue) : OMap JValue :=
  (List.zip paths row).foldl (fun record pv => omSet record (readmeRecordKey pv.1) pv.2) []

/-- `isObjectResult`: every path is object-shaped — no `[]` anywhere and a
`$.` prefix (the `$[]`-prefix tests are kept from the source; they are
subsumed by the `[]` test). -/
def isObjectResult (paths : List Str) : Bool :=
  paths.all (fun p => !hasSub p (str "[]") &&
    ((str "$.").isPrefixOf p && !(str "$[].").isPrefixOf p && !(str "$[]").isPrefixOf p))

/-- `hasArrayMarkers`: some path contains `[]`. -/
def hasArrayMarkers (paths : List Str) : Bool := paths.any (fun p => hasSub p (str "[]"))

/-- The nested-map insertion of shortcut (1): unlike `combineIntoTree`, a
scalar in the way is silently replaced by a fresh map. -/
def insertPathForce : OMap PTree → List Str → Str → JValue → OMap PTree
  | m, [], last, v => omSet m last (.leaf v)
  | m, p :: rest, last, v =>
    match omGet m p with
    | some (.node sub) => omSet m p (.node (insertPathForce sub rest last v))
    | _ => omSet m p (.node (insertPathForce [] rest last v))

/-- Shortcut (1): build the nested object directly from one record. -/
def buildDirectObject (record : OMap JValue) : OMap PTree :=
  record.foldl
    (fun result kv =>
      let key := if (str ".").isPrefixOf kv.1 then kv.1.drop 1 else kv.1
      let parts := splitGo (str ".") key
      if parts.length ≥ 2 then
        insertPathForce result parts.dropLast (parts.getLastD []) kv.2
      else omSet result key (.leaf kv.2))
    []

/-- Shortcut (2): one flat mapping per record, keys as in the records. -/
def flatRecordsArray (records : List (OMap JValue)) : RTree :=
  .arr (records.map (fun r => .obj (r.map (fun kv => (kv.1, RTree.leaf kv.2)))))

/-- The full four-stage pipeline from flat records (canonical replacement
order). -/
def reconstruct (records : List (OMap JValue)) : Option (Except Str RTree) :=
  match combineIntoTree (addHashes (groupBySeparator records (str "[]"))) (str ".") with
  | none => none
  | some t => some (removeHashes t (str "$"))

/-- The README `PathQuery` after the rows are fetched: shortcut (1), else
shortcut (2), else the full pipeline. -/
def readmePathQuery (paths : List Str) (rows : List (List JValue)) :
    Option (Except Str RTree) :=
  let records := rows.map (mkReadmeRecord paths)
  if isObjectResult paths && records.length > 0 then
    some (.ok (embedT (.node (buildDirectObject (records.headD [])))))
  else if !hasArrayMarkers paths then
    some (.ok (flatRecordsArray records))
  else
    reconstruct records

set_option maxRecDepth 100000 in
/-- C6: the shortcut branches are not behavior-equivalent to the full
pipeline.  With the single object-shaped path `$.x` (no `[]` anywhere) and
two records, the full pipeline merges the records into one object keeping
the last value, shortcut (1) — the branch the code actually takes — keeps
the first record only, and shortcut (2) would emit a two-element flat
array; all three disagree. -/
theorem readme_shortcuts_diverge :
    (hasArrayMarkers [str "$.x"] = false ∧
     ([[JValue.vInt 1], [JValue.vInt 2]] : List (List JValue)).length = 2) ∧
    reconstruct ([[JValue.vInt 1], [JValue.vInt 2]].map (mkReadmeRecord [str "$.x"])) =
      some (.ok (.obj [(str "x", .leaf (.vInt 2))])) ∧
    readmePathQuery [str "$.x"] [[JValue.vInt 1], [JValue.vInt 2]] =
      some (.ok (.obj [(str "x", .leaf (.vInt 1))])) ∧
    flatRecordsArray ([[JValue.vInt 1], [JValue.vInt 2]].map (mkReadmeRecord [str "$.x"])) =
      .arr [.obj [(str ".x", .leaf (.vInt 1))], .obj [(str ".x", .leaf (.vInt 2))]] ∧
    readmePathQuery [str "$.x"] [[JValue.vInt 1], [JValue.vInt 2]] ≠
      reconstruct ([[JValue.vInt 1], [JValue.vInt 2]].map (mkReadmeRecord [str "$.x"])) ∧
    some (Except.ok (flatRecordsArray
        ([[JValue.vInt 1], [JValue.vInt 2]].map (mkReadmeRecord [str "$.x"])))) ≠
      reconstruct ([[JValue.vInt 1], [JValue.vInt 2]].map (mkReadmeRecord [str "$.x"])) := by
  decide

/-!
## Claim C4: `PathQuery` with no joins and no hints

Supporting lemmas: the behavior of `splitGo`/`replaceAll` on the structured
keys that arise, and `omSet`/`omGet` on association lists with fresh keys.
-/

theorem isPrefixOf_false_of_head_ne {c d : Char} {s rest : Str} (h : c ≠ d) :
    (d :: s).isPrefixOf (c :: rest) = false := by
  simp [List.isPrefixOf, h.symm]

theorem isPrefixOf_self (l : Str) : l.isPrefixOf l = true := by
  induction l with
  | nil => rfl
  | cons c rest ih => simp [List.isPrefixOf, ih]

theorem hasSub_cons_false {c : Char} {rest pat : Str}
    (h : hasSub (c :: rest) pat = false) : hasSub rest pat = false := by
  rw [hasSub] at h
  cases h2 : hasSub rest pat
  · rfl
  · rw [h2] at h; simp at h

theorem hasSub_single_false (d : Char) (s : Str) (h : s.all (fun c => c ≠ d) = true) :
    hasSub s [d] = false := by
  induction s with
  | nil => rfl
  | cons c rest ih =>
    simp only [List.all_cons, Bool.and_eq_true, decide_eq_true_eq] at h
    rw [hasSub, isPrefixOf_false_of_head_ne h.1]
    simp only [Bool.false_or]
    exact ih h.2

theorem splitGoAux_no_occ (sep : Str) (hsep : sep ≠ []) :
    ∀ (fuel : Nat) (s acc : Str), s.length ≤ fuel → hasSub s sep = false →
      splitGoAux sep fuel s acc = [acc.reverse ++ s] := by
  intro fuel
  induction fuel with
  | zero =>
    intro s acc hlen hno
    have hs : s = [] := by
      cases s with
      | nil => rfl
      | cons c rest => simp at hlen
    subst hs
    simp [splitGoAux]
  | succ m ih =>
    intro s acc hlen hno
    cases s with
    | nil => simp [splitGoAux]
    | cons c rest =>
      have hpre : sep.isPrefixOf (c :: rest) = false := by
        rw [hasSub] at hno
        cases hp : sep.isPrefixOf (c :: rest)
        · rfl
        · rw [hp] at hno; simp at hno
      rw [splitGoAux, hpre]
      simp only [Bool.false_eq_true, if_false]
      rw [ih rest (c :: acc) (by simpa using hlen) (hasSub_cons_false hno)]
      simp

theorem splitGo_no_occ (sep s : Str) (hsep : sep ≠ []) (hno : hasSub s sep = false) :
    splitGo sep s = [s] := by
  rw [splitGo, splitGoAux_no_occ sep hsep s.length s [] (le_refl _) hno]
  simp

/-- `strings.Split` on a `[].`-prefixed key whose tail has no further `[]`. -/
theorem splitGo_brackets (rest : Str) (h : hasSub rest (str "[]") = false) :
    splitGo (str "[]") ('[' :: ']' :: rest) = [[], rest] := by
  show splitGoAux (str "[]") (rest.length + 2) ('[' :: ']' :: rest) [] = [[], rest]
  rw [splitGoAux]
  have hpre : (str "[]").isPrefixOf ('[' :: ']' :: rest) = true := by
    simp [str, List.isPrefixOf]
  rw [hpre]
  simp only [if_true]
  show [] :: splitGoAux (str "[]") (rest.length + 1) (List.drop 1 (']' :: rest)) [] = [[], rest]
  rw [List.drop_one, List.tail_cons,
      splitGoAux_no_occ (str "[]") (by simp [str]) (rest.length + 1) rest [] (by omega) h]
  simp

theorem splitGoAux_char_free (d : Char) :
    ∀ (x : Str) (fuel : Nat) (rest acc : Str), x.all (fun c => c ≠ d) = true →
      x.length + rest.length ≤ fuel →
      splitGoAux [d] fuel (x ++ rest) acc =
        splitGoAux [d] (fuel - x.length) rest (x.reverse ++ acc) := by
  intro x
  induction x with
  | nil => intro fuel rest acc _ _; simp
  | cons c xs ih =>
    intro fuel rest acc hall hlen
    simp only [List.all_cons, Bool.and_eq_true, decide_eq_true_eq] at hall
    cases fuel with
    | zero => simp at hlen
    | succ m =>
      rw [List.cons_append, splitGoAux, isPrefixOf_false_of_head_ne hall.1]
      simp only [Bool.false_eq_true, if_false]
      rw [ih m rest (c :: acc)
        (by simp only [List.all_eq_true]; intro e he
            simp only [List.all_eq_true] at hall
            exact hall.2 e he)
        (by simp at hlen ⊢; omega)]
      simp [Nat.succ_sub_succ]

theorem splitGoAux_sep_step (d : Char) (fuel : Nat) (s acc : Str) :
    splitGoAux [d] (fuel + 1) (d :: s) acc = acc.reverse :: splitGoAux [d] fuel s [] := by
  rw [splitGoAux]
  have hpre : ([d] : Str).isPrefixOf (d :: s) = true := by simp [List.isPrefixOf]
  rw [hpre]
  simp

/-- `strings.Split` by a single character on a two-segment string. -/
theorem splitGo_two (d : Char) (x1 x2 : Str)
    (h1 : x1.all (fun c => c ≠ d) = true) (h2 : x2.all (fun c => c ≠ d) = true) :
    splitGo [d] (x1 ++ d :: x2) = [x1, x2] := by
  rw [splitGo]
  rw [splitGoAux_char_free d x1 _ (d :: x2) [] h1 (by simp)]
  have hlen : (x1 ++ d :: x2).length - x1.length = x2.length + 1 := by simp
  rw [hlen, splitGoAux_sep_step]
  rw [splitGoAux_no_occ [d] (by simp) x2.length x2 [] (le_refl _) (hasSub_single_false d x2 h2)]
  simp

/-- `strings.Split` by a single character on a three-segment string. -/
theorem splitGo_three (d : Char) (x1 x2 x3 : Str)
    (h1 : x1.all (fun c => c ≠ d) = true) (h2 : x2.all (fun c => c ≠ d) = true)
    (h3 : x3.all (fun c => c ≠ d) = true) :
    splitGo [d] (x1 ++ d :: x2 ++ d :: x3) = [x1, x2, x3] := by
  rw [splitGo]
  rw [show x1 ++ d :: x2 ++ d :: x3 = x1 ++ (d :: (x2 ++ d :: x3)) by simp]
  rw [splitGoAux_char_free d x1 _ (d :: (x2 ++ d :: x3)) [] h1 (by simp)]
  have hlen : (x1 ++ d :: (x2 ++ d :: x3)).length - x1.length = (x2 ++ d :: x3).length + 1 := by
    simp
  rw [hlen, splitGoAux_sep_step]
  rw [splitGoAux_char_free d x2 _ (d :: x3) [] h2 (by simp)]
  have hlen2 : (x2 ++ d :: x3).length - x2.length = x3.length + 1 := by simp
  rw [hlen2, splitGoAux_sep_step]
  rw [splitGoAux_no_occ [d] (by simp) x3.length x3 [] (le_refl _) (hasSub_single_false d x3 h3)]
  simp

/-- Replacing a whole-string occurrence. -/
theorem replaceAll_self (pat rep : Str) (hne : pat ≠ []) : replaceAll pat rep pat = rep := by
  cases pat with
  | nil => exact absurd rfl hne
  | cons c rest =>
    rw [replaceAll]
    show replaceAllAux (c :: rest) rep (rest.length + 1) (c :: rest) = rep
    rw [replaceAllAux, isPrefixOf_self]
    simp only [if_true]
    have hdrop : List.drop ((c :: rest).length - 1) rest = [] := by simp
    rw [hdrop]
    simp [replaceAllAux]


theorem omSet_fresh {α : Type} (m : OMap α) (k : Str) (v : α) (h : k ∉ omKeys m) :
    omSet m k v = m ++ [(k, v)] := by
  induction m with
  | nil => rfl
  | cons e rest ih =>
    simp only [omKeys, List.map_cons, List.mem_cons, not_or] at h
    rw [omSet, if_neg (fun hc => h.1 hc.symm)]
    rw [ih (by simpa [omKeys] using h.2)]
    rfl

theorem omGet_not_mem {α : Type} (m : OMap α) (k : Str) (h : k ∉ omKeys m) :
    omGet m k = none := by
  induction m with
  | nil => rfl
  | cons e rest ih =>
    simp only [omKeys, List.map_cons, List.mem_cons, not_or] at h
    rw [omGet, List.find?]
    have hne : (decide (e.1 = k)) = false := decide_eq_false (fun hc => h.1 hc.symm)
    rw [hne]
    exact ih (by simpa [omKeys] using h.2)

theorem omGet_append_right {α : Type} (m1 m2 : OMap α) (k : Str) (h : k ∉ omKeys m1) :
    omGet (m1 ++ m2) k = omGet m2 k := by
  induction m1 with
  | nil => rfl
  | cons e rest ih =>
    simp only [omKeys, List.map_cons, List.mem_cons, not_or] at h
    rw [List.cons_append, omGet, List.find?]
    have hne : (decide (e.1 = k)) = false := decide_eq_false (fun hc => h.1 hc.symm)
    rw [hne]
    exact ih (by simpa [omKeys] using h.2)

theorem omGet_singleton {α : Type} (k : Str) (v : α) : omGet [(k, v)] k = some v := by
  simp [omGet, List.find?]

theorem omSet_append_last {α : Type} (m : OMap α) (k : Str) (v w : α) (h : k ∉ omKeys m) :
    omSet (m ++ [(k, v)]) k w = m ++ [(k, w)] := by
  induction m with
  | nil => simp [omSet]
  | cons e rest ih =>
    simp only [omKeys, List.map_cons, List.mem_cons, not_or] at h
    rw [List.cons_append, omSet, if_neg (fun hc => h.1 hc.symm)]
    rw [ih (by simpa [omKeys] using h.2)]
    rfl

theorem foldl_omSet_append {α : Type} (l : List (Str × α)) :
    ∀ (acc : OMap α), (l.map Prod.fst).Nodup → (∀ e ∈ l, e.1 ∉ omKeys acc) →
      l.foldl (fun m kv => omSet m kv.1 kv.2) acc = acc ++ l := by
  induction l with
  | nil => intro acc _ _; simp
  | cons e rest ih =>
    intro acc hnd hfresh
    obtain ⟨k, v⟩ := e
    simp only [List.map_cons, List.nodup_cons] at hnd
    rw [List.foldl_cons]
    rw [omSet_fresh acc k v (hfresh (k, v) (by simp))]
    rw [ih (acc ++ [(k, v)]) hnd.2 ?fresh2]
    · simp
    case fresh2 =>
      intro e2 he2
      simp only [omKeys, List.map_append, List.mem_append, List.map_cons,
        List.map_nil, List.mem_singleton, not_or]
      constructor
      · exact hfresh e2 (List.mem_cons_of_mem _ he2)
      · intro hc
        exact hnd.1 (hc ▸ List.mem_map_of_mem Prod.fst he2)

/-!
## Claim C4: flat rows for join-free, hint-free queries

Spec: "No joins, no hints ⇒ result is an array of flat objects in row order,
columns in output order."  `addHashes` fingerprints each row's single
`[]`-boundary segment with the MD5 of its JSON encoding, and
`combineIntoTree` merges children under equal fingerprint tokens, so two
identical rows collapse into one output object: the claim fails as stated.
It holds once the row fingerprints are pairwise distinct.
-/

theorem dottedDollar_false_of_take (c : Str) (h : c.take 1 ≠ str "$") :
    dottedDollar c = false := by
  simp [dottedDollar, h]

theorem getPaths_go_plain (cols : List Str) :
    ∀ p, (∀ c ∈ cols, dottedDollar c = false) →
      getPaths.go p cols = cols.map (fun c => p ++ str "." ++ c) := by
  induction cols with
  | nil => intro p _; rfl
  | cons c cs ih =>
    intro p h
    have hc := h c (List.mem_cons_self c cs)
    simp only [getPaths.go, hc, Bool.false_eq_true, if_false, List.map_cons]
    rw [ih p (fun d hd => h d (List.mem_cons_of_mem c hd))]


theorem getPaths_plain (cols : List Str) (hcol : ∀ c ∈ cols, dottedDollar c = false) :
    getPaths cols = cols.map (fun c => str "$[]" ++ str "." ++ c) := by
  rw [getPaths, getPaths_go_plain cols (str "$[]") hcol]

theorem map_append_left_nodup (pre : Str) (cols : List Str) (h : cols.Nodup) :
    (cols.map (fun c => pre ++ c)).Nodup :=
  h.map (fun _ _ hab => List.append_cancel_left hab)

theorem mkRecord_plain_aux (cols : List Str) :
    ∀ (row : List JValue) (acc : OMap JValue),
      (∀ c ∈ cols, (str "[]" ++ str "." ++ c) ∉ omKeys acc) →
      (cols.map (fun c => str "[]" ++ str "." ++ c)).Nodup →
      (List.zip (cols.map (fun c => str "$[]" ++ str "." ++ c)) row).foldl
        (fun record pv => omSet record (pv.1.drop 1) pv.2) acc
        = acc ++ List.zip (cols.map (fun c => str "[]" ++ str "." ++ c)) row := by
  induction cols with
  | nil => intro row acc _ _; simp
  | cons c cs ih =>
    intro row acc hfresh hnd
    cases row with
    | nil => simp
    | cons v vs =>
      simp only [List.map_cons, List.zip_cons_cons, List.foldl_cons]
      rw [show ((str "$[]" ++ str "." ++ c) : Str).drop 1 = str "[]" ++ str "." ++ c from rfl]
      rw [omSet_fresh acc _ v (hfresh c (List.mem_cons_self c cs))]
      simp only [List.map_cons, List.nodup_cons] at hnd
      rw [ih vs (acc ++ [(str "[]" ++ str "." ++ c, v)]) ?fr hnd.2]
      · simp
      case fr =>
        intro d hd
        simp only [omKeys, List.map_append, List.mem_append, List.map_cons, List.map_nil,
          List.mem_singleton, not_or]
        constructor
        · exact hfresh d (List.mem_cons_of_mem c hd)
        · intro hc
          exact hnd.1 (hc ▸ List.mem_map_of_mem _ hd)

theorem mkRecord_plain (cols : List Str) (row : List JValue)
    (hnd : (cols.map (fun c => str "[]" ++ str "." ++ c)).Nodup) :
    mkRecord (cols.map (fun c => str "$[]" ++ str "." ++ c)) row
      = List.zip (cols.map (fun c => str "[]" ++ str "." ++ c)) row := by
  simp only [mkRecord]
  rw [mkRecord_plain_aux cols row [] (fun c _ => by simp [omKeys]) hnd]
  simp

/-- The loop body of `groupBySeparator` for `sep = "[]"`, named for rewriting. -/
def groupStep4 (result : OMap (OMap JValue)) (nv : Str × JValue) : OMap (OMap JValue) :=
  let parts := splitGo (str "[]") nv.1
  let newName := parts.getLastD []
  let path0 := joinSep (str "[]") parts.dropLast
  let path := if parts.length - 1 > 0 then path0 ++ str "[]" else path0
  let sub := (omGet result path).getD []
  omSet result path (omSet sub newName nv.2)

theorem groupRecord_eq_foldl (record : OMap JValue) :
    groupRecord (str "[]") record = List.foldl groupStep4 [] record := by
  unfold groupRecord
  congr 1

theorem groupStep4_eval (state : OMap (OMap JValue)) (c : Str) (v : JValue)
    (hns : hasSub (str "." ++ c) (str "[]") = false) :
    groupStep4 state (str "[]" ++ str "." ++ c, v)
      = omSet state (str "[]") (omSet ((omGet state (str "[]")).getD []) (str "." ++ c) v) := by
  have h1 : splitGo (str "[]") (str "[]" ++ str "." ++ c) = [[], str "." ++ c] := by
    rw [show (str "[]" ++ str "." ++ c : Str) = '[' :: ']' :: (str "." ++ c) from rfl]
    exact splitGo_brackets _ hns
  unfold groupStep4
  simp only [h1]
  rfl

theorem groupRecord_fold_aux (cols : List Str) :
    ∀ (row : List JValue) (sub : OMap JValue),
      (∀ c ∈ cols, hasSub (str "." ++ c) (str "[]") = false) →
      (∀ c ∈ cols, (str "." ++ c) ∉ omKeys sub) →
      (cols.map (fun c => str "." ++ c)).Nodup →
      (List.zip (cols.map (fun c => str "[]" ++ str "." ++ c)) row).foldl groupStep4
        [(str "[]", sub)]
        = [(str "[]", sub ++ List.zip (cols.map (fun c => str "." ++ c)) row)] := by
  induction cols with
  | nil => intro row sub _ _ _; simp
  | cons c cs ih =>
    intro row sub hns hfresh hnd
    cases row with
    | nil => simp
    | cons v vs =>
      simp only [List.map_cons, List.zip_cons_cons]
      rw [List.foldl_cons]
      rw [groupStep4_eval [(str "[]", sub)] c v (hns c (List.mem_cons_self c cs))]
      rw [omGet_singleton, Option.getD_some]
      rw [omSet_fresh sub _ v (hfresh c (List.mem_cons_self c cs))]
      rw [show omSet [(str "[]", sub)] (str "[]") (sub ++ [(str "." ++ c, v)])
            = [(str "[]", sub ++ [(str "." ++ c, v)])] from rfl]
      simp only [List.map_cons, List.nodup_cons] at hnd
      rw [ih vs (sub ++ [(str "." ++ c, v)])
        (fun d hd => hns d (List.mem_cons_of_mem c hd)) ?fr hnd.2]
      · simp
      case fr =>
        intro d hd
        simp only [omKeys, List.map_append, List.mem_append, List.map_cons, List.map_nil,
          List.mem_singleton, not_or]
        constructor
        · exact hfresh d (List.mem_cons_of_mem c hd)
        · intro hc
          exact hnd.1 (hc ▸ List.mem_map_of_mem _ hd)

theorem groupRecord_plain (cols : List Str) (row : List JValue)
    (hns : ∀ c ∈ cols, hasSub (str "." ++ c) (str "[]") = false)
    (hnd : (cols.map (fun c => str "." ++ c)).Nodup)
    (hc : cols ≠ []) (hr : row ≠ []) :
    groupRecord (str "[]") (List.zip (cols.map (fun c => str "[]" ++ str "." ++ c)) row)
      = [(str "[]", List.zip (cols.map (fun c => str "." ++ c)) row)] := by
  rw [groupRecord_eq_foldl]
  match cols, row with
  | [], _ => exact absurd rfl hc
  | _ :: _, [] => exact absurd rfl hr
  | c :: cs, v :: vs =>
    simp only [List.map_cons, List.zip_cons_cons]
    rw [List.foldl_cons]
    rw [groupStep4_eval [] c v (hns c (List.mem_cons_self c cs))]
    rw [show omSet ([] : OMap (OMap JValue)) (str "[]")
          (omSet ((omGet ([] : OMap (OMap JValue)) (str "[]")).getD []) (str "." ++ c) v)
          = [(str "[]", [(str "." ++ c, v)])] from rfl]
    simp only [List.map_cons, List.nodup_cons] at hnd
    rw [groupRecord_fold_aux cs vs [(str "." ++ c, v)]
      (fun d hd => hns d (List.mem_cons_of_mem c hd)) ?fr hnd.2]
    · rfl
    case fr =>
      intro d hd
      simp only [omKeys, List.map_cons, List.map_nil, List.mem_singleton]
      intro hcc
      exact hnd.1 (hcc ▸ List.mem_map_of_mem _ hd)

theorem hashMapping_single (sub : OMap JValue) :
    hashMapping [(str "[]", sub)]
      = [(str "[]", str ".!" ++ segmentHash sub ++ str "!")] := by
  unfold hashMapping
  rw [List.foldl_cons, List.foldl_nil]
  rw [if_pos (by decide : ((str "[]").isSuffixOf (str "[]")) = true)]
  rfl

theorem sortByRevLen_single (k : Str) : sortByRevLen [k] = [k] := rfl

theorem addHashesRecord_single (sub : OMap JValue) :
    addHashesRecordWith [str "[]"] [(str "[]", sub)]
      = [(str ".!" ++ segmentHash sub ++ str "!", sub)] := by
  unfold addHashesRecordWith
  rw [List.foldl_cons, List.foldl_nil]
  rw [List.foldl_cons, List.foldl_nil]
  rw [hashMapping_single]
  rw [omGet_singleton]
  rw [show (some (str ".!" ++ segmentHash sub ++ str "!")).getD (str "[]")
        = str ".!" ++ segmentHash sub ++ str "!" from rfl]
  rw [replaceAll_self (str "[]") _ (by decide)]
  rfl

theorem hexDigit_ne_dot :
    ∀ n < 16, (if n < 10 then Char.ofNat (48 + n) else Char.ofNat (87 + n)) ≠ '.' := by decide

theorem word2hex_all_ne_dot (w : Nat) : (word2hex w).all (fun ch => ch ≠ '.') = true := by
  unfold word2hex
  simp only [List.all_cons, List.all_nil, Bool.and_eq_true, decide_eq_true_eq, and_true]
  exact ⟨hexDigit_ne_dot _ (Nat.mod_lt _ (by norm_num)),
         hexDigit_ne_dot _ (Nat.mod_lt _ (by norm_num)),
         hexDigit_ne_dot _ (Nat.mod_lt _ (by norm_num)),
         hexDigit_ne_dot _ (Nat.mod_lt _ (by norm_num))⟩

theorem word2hexLE_all_ne_dot (w : Nat) : (word2hexLE w).all (fun ch => ch ≠ '.') = true := by
  unfold word2hexLE
  rw [List.all_append, word2hex_all_ne_dot, word2hex_all_ne_dot]
  rfl

theorem md5Hex_all_ne_dot (msg : List Nat) : (md5Hex msg).all (fun ch => ch ≠ '.') = true := by
  unfold md5Hex
  rw [List.all_append, List.all_append, List.all_append]
  rw [word2hexLE_all_ne_dot, word2hexLE_all_ne_dot, word2hexLE_all_ne_dot, word2hexLE_all_ne_dot]
  rfl

theorem segmentHash_all_ne_dot (part : OMap JValue) :
    (segmentHash part).all (fun ch => ch ≠ '.') = true :=
  md5Hex_all_ne_dot _

theorem splitGo_hashed_key (h c : Str)
    (hh : h.all (fun ch => ch ≠ '.') = true)
    (hc : c.all (fun ch => ch ≠ '.') = true) :
    splitGo (str ".") ((str ".!" ++ h ++ str "!") ++ (str "." ++ c))
      = [[], '!' :: (h ++ str "!"), c] := by
  rw [show ((str ".!" ++ h ++ str "!") ++ (str "." ++ c) : Str)
        = [] ++ '.' :: ('!' :: (h ++ str "!")) ++ '.' :: c from by simp; rfl]
  rw [show (str "." : Str) = ['.'] from rfl]
  exact splitGo_three '.' [] ('!' :: (h ++ str "!")) c rfl
    (by simp only [List.all_cons, List.all_append, Bool.and_eq_true, decide_eq_true_eq]
        exact ⟨by decide, hh, by decide⟩)
    hc

/-- The inner loop body of `combineIntoTree` for `sep = "."` and a fixed
outer key `name`, named for rewriting. -/
def combineStep4 (name : Str) (acc2 : OMap PTree) (kv : Str × JValue) : Option (OMap PTree) :=
  let segs := splitGo (str ".") (name ++ kv.1)
  insertPath segs.dropLast (segs.getLastD []) kv.2 acc2

theorem combineRecord_single (name : Str) (sub : OMap JValue) (root : OMap PTree) :
    combineRecord (str ".") root [(name, sub)] = sub.foldlM (combineStep4 name) root := by
  unfold combineRecord
  simp only [List.foldlM_cons, List.foldlM_nil, bind_pure]
  rfl

theorem combineStep4_eval (h c : Str) (v : JValue) (acc : OMap PTree)
    (hh : h.all (fun ch => ch ≠ '.') = true) (hc : c.all (fun ch => ch ≠ '.') = true) :
    combineStep4 (str ".!" ++ h ++ str "!") acc (str "." ++ c, v)
      = insertPath [[], '!' :: (h ++ str "!")] c v acc := by
  simp only [combineStep4]
  rw [splitGo_hashed_key h c hh hc]
  rfl

theorem insertPath_cons_node (p : Str) (rest : List Str) (last : Str) (v : JValue)
    (m : OMap PTree) (sub : OMap PTree) (h : omGet m p = some (.node sub)) :
    insertPath (p :: rest) last v m
      = match insertPath rest last v sub with
        | none => none
        | some sub2 => some (omSet m p (.node sub2)) := by
  conv_lhs => unfold insertPath
  rw [h]

theorem insertPath_cons_none (p : Str) (rest : List Str) (last : Str) (v : JValue)
    (m : OMap PTree) (h : omGet m p = none) :
    insertPath (p :: rest) last v m
      = match insertPath rest last v [] with
        | none => none
        | some sub2 => some (omSet m p (.node sub2)) := by
  conv_lhs => unfold insertPath
  rw [h]

theorem insertPath_tok_fresh (tok c : Str) (v : JValue) (T : OMap PTree)
    (hfresh : tok ∉ omKeys T) :
    insertPath [tok] c v T = some (T ++ [(tok, PTree.node [(c, PTree.leaf v)])]) := by
  rw [insertPath_cons_none tok [] c v T (omGet_not_mem T tok hfresh)]
  show some (omSet T tok (PTree.node [(c, PTree.leaf v)])) = _
  rw [omSet_fresh T tok _ hfresh]

theorem insertPath_tok_existing (tok c : Str) (v : JValue) (T part : OMap PTree)
    (hfresh : tok ∉ omKeys T) (hc : c ∉ omKeys part) :
    insertPath [tok] c v (T ++ [(tok, PTree.node part)])
      = some (T ++ [(tok, PTree.node (part ++ [(c, PTree.leaf v)]))]) := by
  have hget : omGet (T ++ [(tok, PTree.node part)]) tok = some (PTree.node part) := by
    rw [omGet_append_right T _ tok hfresh]
    exact omGet_singleton tok _
  rw [insertPath_cons_node tok [] c v _ part hget]
  show some (omSet (T ++ [(tok, PTree.node part)]) tok
        (PTree.node (omSet part c (PTree.leaf v)))) = _
  rw [omSet_fresh part c _ hc, omSet_append_last T tok _ _ hfresh]

theorem insertPath_root_step (tok c : Str) (v : JValue) (inner inner2 : OMap PTree)
    (h : insertPath [tok] c v inner = some inner2) :
    insertPath [[], tok] c v [([], PTree.node inner)] = some [([], PTree.node inner2)] := by
  rw [insertPath_cons_node [] [tok] c v [([], PTree.node inner)] inner rfl]
  rw [h]
  rfl

theorem insertPath_root_first (tok c : Str) (v : JValue) :
    insertPath [[], tok] c v []
      = some [([], PTree.node [(tok, PTree.node [(c, PTree.leaf v)])])] := rfl

/-- The single `[]`-boundary segment of a flat record: keys `"." ++ c`. -/
def flatZip (cols : List Str) (row : List JValue) : OMap JValue :=
  List.zip (cols.map (fun c => str "." ++ c)) row

/-- The MD5 fingerprint `addHashes` computes for a flat row. -/
def rowHash (cols : List Str) (row : List JValue) : Str := segmentHash (flatZip cols row)

theorem combineFold_cols (h : Str) (cols : List Str) :
    ∀ (row : List JValue) (part T : OMap PTree),
      h.all (fun ch => ch ≠ '.') = true →
      (∀ c ∈ cols, c.all (fun ch => ch ≠ '.') = true) →
      ('!' :: (h ++ str "!")) ∉ omKeys T →
      (∀ c ∈ cols, c ∉ omKeys part) →
      cols.Nodup →
      List.foldlM (combineStep4 (str ".!" ++ h ++ str "!"))
        [([], PTree.node (T ++ [('!' :: (h ++ str "!"), PTree.node part)]))]
        (List.zip (cols.map (fun c => str "." ++ c)) row)
      = some [([], PTree.node (T ++ [('!' :: (h ++ str "!"),
          PTree.node (part ++ (List.zip cols row).map (fun kv => (kv.1, PTree.leaf kv.2))))]))] := by
  induction cols with
  | nil => intro row part T _ _ _ _ _; simp
  | cons c cs ih =>
    intro row part T hh hcols hT hpart hnd
    cases row with
    | nil => simp
    | cons v vs =>
      simp only [List.map_cons, List.zip_cons_cons]
      rw [List.foldlM_cons]
      rw [combineStep4_eval h c v _ hh (hcols c (List.mem_cons_self c cs))]
      rw [insertPath_root_step ('!' :: (h ++ str "!")) c v _ _
        (insertPath_tok_existing ('!' :: (h ++ str "!")) c v T part hT
          (hpart c (List.mem_cons_self c cs)))]
      show List.foldlM (combineStep4 (str ".!" ++ h ++ str "!"))
        [([], PTree.node (T ++ [('!' :: (h ++ str "!"),
          PTree.node (part ++ [(c, PTree.leaf v)]))]))]
        (List.zip (cs.map (fun c => str "." ++ c)) vs) = _
      simp only [List.nodup_cons] at hnd
      rw [ih vs (part ++ [(c, PTree.leaf v)]) T hh
        (fun d hd => hcols d (List.mem_cons_of_mem c hd)) hT ?fr hnd.2]
      · simp
      case fr =>
        intro d hd
        simp only [omKeys, List.map_append, List.mem_append, List.map_cons, List.map_nil,
          List.mem_singleton, not_or]
        constructor
        · exact hpart d (List.mem_cons_of_mem c hd)
        · intro hc
          exact hnd.1 (hc ▸ hd)

theorem combineRecord_hashed (h : Str) (cols : List Str) (row : List JValue) (T : OMap PTree)
    (hh : h.all (fun ch => ch ≠ '.') = true)
    (hcols : ∀ c ∈ cols, c.all (fun ch => ch ≠ '.') = true)
    (hT : ('!' :: (h ++ str "!")) ∉ omKeys T)
    (hnd : cols.Nodup) (hcne : cols ≠ []) (hrne : row ≠ []) :
    combineRecord (str ".") [([], PTree.node T)]
      [(str ".!" ++ h ++ str "!", List.zip (cols.map (fun c => str "." ++ c)) row)]
      = some [([], PTree.node (T ++ [('!' :: (h ++ str "!"),
          PTree.node ((List.zip cols row).map (fun kv => (kv.1, PTree.leaf kv.2))))]))] := by
  rw [combineRecord_single]
  match cols, row with
  | [], _ => exact absurd rfl hcne
  | _ :: _, [] => exact absurd rfl hrne
  | c :: cs, v :: vs =>
    simp only [List.map_cons, List.zip_cons_cons]
    rw [List.foldlM_cons]
    rw [combineStep4_eval h c v _ hh (hcols c (List.mem_cons_self c cs))]
    rw [insertPath_root_step ('!' :: (h ++ str "!")) c v _ _
      (insertPath_tok_fresh ('!' :: (h ++ str "!")) c v T hT)]
    show List.foldlM (combineStep4 (str ".!" ++ h ++ str "!"))
      [([], PTree.node (T ++ [('!' :: (h ++ str "!"),
        PTree.node [(c, PTree.leaf v)])]))]
      (List.zip (cs.map (fun c => str "." ++ c)) vs) = _
    simp only [List.nodup_cons] at hnd
    rw [show (PTree.node [(c, PTree.leaf v)])
          = PTree.node ([(c, PTree.leaf v)] : OMap PTree) from rfl]
    rw [combineFold_cols h cs vs [(c, PTree.leaf v)] T hh
      (fun d hd => hcols d (List.mem_cons_of_mem c hd)) hT ?fr hnd.2]
    · simp
    case fr =>
      intro d hd
      simp only [omKeys, List.map_cons, List.map_nil, List.mem_singleton]
      intro hcc
      exact hnd.1 (hcc ▸ hd)

theorem combineRecord_hashed_first (h : Str) (cols : List Str) (row : List JValue)
    (hh : h.all (fun ch => ch ≠ '.') = true)
    (hcols : ∀ c ∈ cols, c.all (fun ch => ch ≠ '.') = true)
    (hnd : cols.Nodup) (hcne : cols ≠ []) (hrne : row ≠ []) :
    combineRecord (str ".") []
      [(str ".!" ++ h ++ str "!", List.zip (cols.map (fun c => str "." ++ c)) row)]
      = some [([], PTree.node [('!' :: (h ++ str "!"),
          PTree.node ((List.zip cols row).map (fun kv => (kv.1, PTree.leaf kv.2))))])] := by
  rw [combineRecord_single]
  match cols, row with
  | [], _ => exact absurd rfl hcne
  | _ :: _, [] => exact absurd rfl hrne
  | c :: cs, v :: vs =>
    simp only [List.map_cons, List.zip_cons_cons]
    rw [List.foldlM_cons]
    rw [combineStep4_eval h c v _ hh (hcols c (List.mem_cons_self c cs))]
    rw [insertPath_root_first ('!' :: (h ++ str "!")) c v]
    show List.foldlM (combineStep4 (str ".!" ++ h ++ str "!"))
      [([], PTree.node (([] : OMap PTree) ++ [('!' :: (h ++ str "!"),
        PTree.node [(c, PTree.leaf v)])]))]
      (List.zip (cs.map (fun c => str "." ++ c)) vs) = _
    simp only [List.nodup_cons] at hnd
    rw [combineFold_cols h cs vs [(c, PTree.leaf v)] [] hh
      (fun d hd => hcols d (List.mem_cons_of_mem c hd)) (by simp [omKeys]) ?fr hnd.2]
    · simp
    case fr =>
      intro d hd
      simp only [omKeys, List.map_cons, List.map_nil, List.mem_singleton]
      intro hcc
      exact hnd.1 (hcc ▸ hd)

theorem combineFold_rows (cols : List Str) (rows : List (List JValue)) :
    ∀ (T : OMap PTree),
      (∀ c ∈ cols, c.all (fun ch => ch ≠ '.') = true) → cols.Nodup → cols ≠ [] →
      (∀ r ∈ rows, r ≠ []) →
      (∀ r ∈ rows, ('!' :: (rowHash cols r ++ str "!")) ∉ omKeys T) →
      (rows.map (fun r => rowHash cols r)).Nodup →
      List.foldlM (combineRecord (str "."))
        [([], PTree.node T)]
        (rows.map (fun r =>
          [(str ".!" ++ rowHash cols r ++ str "!",
            List.zip (cols.map (fun c => str "." ++ c)) r)]))
      = some [([], PTree.node (T ++ rows.map (fun r =>
          ('!' :: (rowHash cols r ++ str "!"),
           PTree.node ((List.zip cols r).map (fun kv => (kv.1, PTree.leaf kv.2)))))))] := by
  induction rows with
  | nil => intro T _ _ _ _ _ _; simp
  | cons r rest ih =>
    intro T hcols hnd hcne hrne hT hfp
    simp only [List.map_cons]
    rw [List.foldlM_cons]
    rw [combineRecord_hashed (rowHash cols r) cols r T
      (segmentHash_all_ne_dot _) hcols (hT r (List.mem_cons_self r rest)) hnd hcne
      (hrne r (List.mem_cons_self r rest))]
    show List.foldlM (combineRecord (str "."))
      [([], PTree.node (T ++ [('!' :: (rowHash cols r ++ str "!"),
        PTree.node ((List.zip cols r).map (fun kv => (kv.1, PTree.leaf kv.2))))]))]
      (rest.map (fun r =>
        [(str ".!" ++ rowHash cols r ++ str "!",
          List.zip (cols.map (fun c => str "." ++ c)) r)])) = _
    simp only [List.map_cons, List.nodup_cons] at hfp
    rw [ih (T ++ [('!' :: (rowHash cols r ++ str "!"),
        PTree.node ((List.zip cols r).map (fun kv => (kv.1, PTree.leaf kv.2))))])
      hcols hnd hcne (fun d hd => hrne d (List.mem_cons_of_mem r hd)) ?fr hfp.2]
    · simp
    case fr =>
      intro d hd
      simp only [omKeys, List.map_append, List.mem_append, List.map_cons, List.map_nil,
        List.mem_singleton, not_or]
      constructor
      · exact hT d (List.mem_cons_of_mem r hd)
      · intro hc
        have hhash : rowHash cols d = rowHash cols r := by simpa using hc
        exact hfp.1 (hhash ▸ List.mem_map_of_mem _ hd)

theorem combineIntoTree_hashed (cols : List Str) (rows : List (List JValue))
    (hcols : ∀ c ∈ cols, c.all (fun ch => ch ≠ '.') = true)
    (hnd : cols.Nodup) (hcne : cols ≠ []) (hrne : ∀ r ∈ rows, r ≠ [])
    (hrowsne : rows ≠ [])
    (hfp : (rows.map (fun r => rowHash cols r)).Nodup) :
    combineIntoTree
      (rows.map (fun r =>
        [(str ".!" ++ rowHash cols r ++ str "!",
          List.zip (cols.map (fun c => str "." ++ c)) r)]))
      (str ".")
      = some (PTree.node (rows.map (fun r =>
          ('!' :: (rowHash cols r ++ str "!"),
           PTree.node ((List.zip cols r).map (fun kv => (kv.1, PTree.leaf kv.2))))))) := by
  unfold combineIntoTree
  match rows, hrowsne with
  | r :: rest, _ =>
    simp only [List.map_cons]
    rw [List.foldlM_cons]
    rw [combineRecord_hashed_first (rowHash cols r) cols r (segmentHash_all_ne_dot _)
      hcols hnd hcne (hrne r (List.mem_cons_self r rest))]
    simp only [List.map_cons, List.nodup_cons] at hfp
    have hstep := combineFold_rows cols rest
      [('!' :: (rowHash cols r ++ str "!"),
        PTree.node ((List.zip cols r).map (fun kv => (kv.1, PTree.leaf kv.2))))]
      hcols hnd hcne (fun d hd => hrne d (List.mem_cons_of_mem r hd)) ?fr hfp.2
    case fr =>
      intro d hd
      simp only [omKeys, List.map_cons, List.map_nil, List.mem_singleton]
      intro hc
      have hhash : rowHash cols d = rowHash cols r := by simpa using hc
      exact hfp.1 (hhash ▸ List.mem_map_of_mem _ hd)
    show (match List.foldlM (combineRecord (str "."))
        [([], PTree.node [('!' :: (rowHash cols r ++ str "!"),
          PTree.node ((List.zip cols r).map (fun kv => (kv.1, PTree.leaf kv.2))))])]
        (rest.map (fun r =>
          [(str ".!" ++ rowHash cols r ++ str "!",
            List.zip (cols.map (fun c => str "." ++ c)) r)])) with
      | none => none
      | some root =>
        match omGet root (str "") with
        | some (.node cs) => some (PTree.node cs)
        | _ => none) = _
    rw [hstep]
    show (match omGet [(([] : Str), PTree.node
        ([('!' :: (rowHash cols r ++ str "!"),
          PTree.node ((List.zip cols r).map (fun kv => (kv.1, PTree.leaf kv.2))))]
         ++ rest.map (fun d =>
          ('!' :: (rowHash cols d ++ str "!"),
           PTree.node ((List.zip cols d).map (fun kv => (kv.1, PTree.leaf kv.2)))))))]
        (str "") with
      | some (.node cs) => some (PTree.node cs)
      | _ => none) = _
    rw [show omGet [(([] : Str), PTree.node
        ([('!' :: (rowHash cols r ++ str "!"),
          PTree.node ((List.zip cols r).map (fun kv => (kv.1, PTree.leaf kv.2))))]
         ++ rest.map (fun d =>
          ('!' :: (rowHash cols d ++ str "!"),
           PTree.node ((List.zip cols d).map (fun kv => (kv.1, PTree.leaf kv.2)))))))]
        (str "")
      = some (PTree.node
        ([('!' :: (rowHash cols r ++ str "!"),
          PTree.node ((List.zip cols r).map (fun kv => (kv.1, PTree.leaf kv.2))))]
         ++ rest.map (fun d =>
          ('!' :: (rowHash cols d ++ str "!"),
           PTree.node ((List.zip cols d).map (fun kv => (kv.1, PTree.leaf kv.2))))))) from rfl]
    simp

theorem getLast_eq_of_concat_shape (a : Char) (pre : Str) :
    ∀ (l : Str) (hne : l ≠ []), l = pre ++ [a] → l.getLast hne = a := by
  intro l hne hl
  subst hl
  exact List.getLast_append _

theorem isHashKey_bang (h : Str) : isHashKey ('!' :: (h ++ str "!")) = true := by
  unfold isHashKey
  have hlast := getLast_eq_of_concat_shape '!' ('!' :: h) ('!' :: (h ++ str "!"))
    (by simp) (by simp [show (str "!" : Str) = ['!'] from rfl])
  simp [hlast]

theorem removeHashesWalk_leaves (kvs : List (Str × JValue)) (p : Str) :
    removeHashesWalk (kvs.map (fun kv => (kv.1, PTree.leaf kv.2))) p
      = .ok (kvs, [], []) := by
  induction kvs with
  | nil => rfl
  | cons kv rest ih =>
    simp only [List.map_cons]
    rw [removeHashesWalk]
    rw [ih]
    rfl

theorem removeHashes_leaf_node (kvs : List (Str × JValue)) (p : Str) :
    removeHashes (PTree.node (kvs.map (fun kv => (kv.1, PTree.leaf kv.2)))) p
      = .ok (.obj (kvs.map (fun kv => (kv.1, RTree.leaf kv.2)))) := by
  rw [removeHashes]
  rw [removeHashesWalk_leaves]
  show assembleNode p kvs [] [] = _
  unfold assembleNode
  simp

theorem removeHashesWalk_tagged_rows (cols : List Str) (rows : List (List JValue)) (p : Str) :
    removeHashesWalk (rows.map (fun r =>
        ('!' :: (rowHash cols r ++ str "!"),
         PTree.node ((List.zip cols r).map (fun kv => (kv.1, PTree.leaf kv.2)))))) p
      = .ok ([], [], rows.map (fun r =>
          RTree.obj ((List.zip cols r).map (fun kv => (kv.1, RTree.leaf kv.2))))) := by
  induction rows with
  | nil => rfl
  | cons r rest ih =>
    simp only [List.map_cons]
    rw [removeHashesWalk]
    rw [if_pos (isHashKey_bang _)]
    rw [removeHashes_leaf_node]
    rw [ih]
    rfl

theorem removeHashes_tagged_rows (cols : List Str) (rows : List (List JValue)) (p : Str)
    (hrne : rows ≠ []) :
    removeHashes (PTree.node (rows.map (fun r =>
        ('!' :: (rowHash cols r ++ str "!"),
         PTree.node ((List.zip cols r).map (fun kv => (kv.1, PTree.leaf kv.2))))))) p
      = .ok (.arr (rows.map (fun r =>
          RTree.obj ((List.zip cols r).map (fun kv => (kv.1, RTree.leaf kv.2)))))) := by
  rw [removeHashes]
  rw [removeHashesWalk_tagged_rows]
  show assembleNode p [] []
      (rows.map (fun r =>
        RTree.obj ((List.zip cols r).map (fun kv => (kv.1, RTree.leaf kv.2))))) = _
  unfold assembleNode
  rw [if_pos]
  · rw [if_neg (by simp [omKeys])]
  · simp [List.length_pos, hrne]

theorem dotPrefix_no_brackets (c : Str) (h : hasSub c (str "[]") = false) :
    hasSub (str "." ++ c) (str "[]") = false := by
  show ((str "[]").isPrefixOf ('.' :: c) || hasSub c (str "[]")) = false
  rw [show (str "[]" : Str) = '[' :: [']'] from rfl]
  rw [isPrefixOf_false_of_head_ne (by decide)]
  simpa using h

theorem addHashes_single_full (sub : OMap JValue) :
    addHashesRecordWith (sortByRevLen (omKeys (hashMapping [(str "[]", sub)]))) [(str "[]", sub)]
      = [(str ".!" ++ segmentHash sub ++ str "!", sub)] := by
  rw [hashMapping_single]
  rw [show omKeys [(str "[]", str ".!" ++ segmentHash sub ++ str "!")] = [str "[]"] from rfl]
  rw [sortByRevLen_single]
  exact addHashesRecord_single sub

/-- C4 (amended): for a query whose reconstruction starts from plain column
names — non-empty, not starting with `$`, containing no `.` and no `[]`,
pairwise distinct — and non-empty rows of matching width whose segment
fingerprints are pairwise distinct, `PathQuery` returns an array of flat
objects, one per row in row order, each with the column names as keys in
column order. -/
theorem pathQuery_flat_rows (cols : List Str) (rows : List (List JValue))
    (hne : ∀ c ∈ cols, c ≠ [])
    (hds : ∀ c ∈ cols, c.take 1 ≠ str "$")
    (hdot : ∀ c ∈ cols, c.all (fun ch => ch ≠ '.') = true)
    (hbr : ∀ c ∈ cols, hasSub c (str "[]") = false)
    (hnd : cols.Nodup)
    (hcne : cols ≠ [])
    (hrne : rows ≠ [])
    (hlen : ∀ r ∈ rows, r.length = cols.length)
    (hfp : (rows.map (fun r =>
        segmentHash (List.zip (cols.map (fun c => str "." ++ c)) r))).Nodup) :
    runPathQuery cols rows
      = some (.ok (.arr (rows.map (fun r =>
          RTree.obj ((List.zip cols r).map (fun kv => (kv.1, RTree.leaf kv.2))))))) := by
  have hrowne : ∀ r ∈ rows, r ≠ [] := by
    intro r hr hr0
    have := hlen r hr
    rw [hr0] at this
    exact hcne (List.length_eq_zero.mp this.symm)
  have hndflat : (cols.map (fun c => str "[]" ++ str "." ++ c)).Nodup :=
    map_append_left_nodup (str "[]" ++ str ".") cols hnd
  have hnddot : (cols.map (fun c => str "." ++ c)).Nodup :=
    map_append_left_nodup (str ".") cols hnd
  have hcomb :
      addHashes (groupBySeparator
        (rows.map (mkRecord (cols.map (fun c => str "$[]" ++ str "." ++ c)))) (str "[]"))
      = rows.map (fun r =>
          [(str ".!" ++ rowHash cols r ++ str "!",
            List.zip (cols.map (fun c => str "." ++ c)) r)]) := by
    unfold groupBySeparator addHashes
    simp only [List.map_map]
    apply List.map_congr_left
    intro r hr
    show addHashesRecordWith (sortByRevLen (omKeys (hashMapping (groupRecord (str "[]")
        (mkRecord (cols.map (fun c => str "$[]" ++ str "." ++ c)) r)))))
      (groupRecord (str "[]")
        (mkRecord (cols.map (fun c => str "$[]" ++ str "." ++ c)) r)) = _
    rw [mkRecord_plain cols r hndflat]
    rw [groupRecord_plain cols r (fun c hc => dotPrefix_no_brackets c (hbr c hc))
      hnddot hcne (hrowne r hr)]
    exact addHashes_single_full _
  simp only [runPathQuery]
  rw [getPaths_plain cols (fun c hc => dottedDollar_false_of_take c (hds c hc))]
  rw [hcomb]
  rw [combineIntoTree_hashed cols rows hdot hnd hcne hrowne hrne hfp]
  show some (removeHashes (PTree.node (rows.map (fun r =>
      ('!' :: (rowHash cols r ++ str "!"),
       PTree.node ((List.zip cols r).map (fun kv => (kv.1, PTree.leaf kv.2))))))) (str "$")) = _
  rw [removeHashes_tagged_rows cols rows (str "$") hrne]

set_option maxRecDepth 100000 in
/-- C4 counterexample: two identical rows yield one object.  `addHashes`
fingerprints each row segment by the MD5 of its content, so equal rows get
equal fingerprint tokens, `combineIntoTree` merges them into a single child,
and `PathQuery` returns a one-element array for two rows, not one object per
row in row order. -/
theorem pathQuery_duplicate_rows_collapse :
    runPathQuery [str "id"] [[JValue.vInt 1], [JValue.vInt 1]]
      = some (.ok (.arr [RTree.obj [(str "id", RTree.leaf (JValue.vInt 1))]])) := by
  decide

set_option maxRecDepth 100000 in
/-- Witness for the amended C4 at two concrete distinct rows. -/
theorem pathQuery_flat_rows_witness :
    runPathQuery [str "id"] [[JValue.vInt 1], [JValue.vInt 2]]
      = some (.ok (.arr [RTree.obj [(str "id", RTree.leaf (JValue.vInt 1))],
                         RTree.obj [(str "id", RTree.leaf (JValue.vInt 2))]])) :=
  pathQuery_flat_rows [str "id"] [[JValue.vInt 1], [JValue.vInt 2]]
    (by decide) (by decide) (by decide) (by decide) (by decide) (by decide) (by decide)
    (by decide) (by decide)

/-!
## Claim C5: the structural query analyzer (src/unnamed/part_000)

`AnalyzeQuery` extracts path hints, the `FROM` clause and the `JOIN` clauses
with hand-rolled regular expressions and always returns `analysis, nil`.
The regex scans are modeled as explicit fuel-based scanners with the same
leftmost, non-overlapping semantics; greedy `\s+`/`\w+` runs are modeled by
maximal munch (the character classes on either side are disjoint, so no
backtracking is observable), and Go's unordered map iteration is modeled in
insertion order.
-/

/-- Go regexp `\s = [\t\n\f\r ]`: space, tab, newline, form feed, carriage
return (vertical tab is not in the class). -/
def isSpaceChar (c : Char) : Bool :=
  c = ' ' || c = '\t' || c = '\n' || c = Char.ofNat 12 || c = '\r'

/-- `unicode.IsSpace` on ASCII text (for `strings.TrimSpace`): the regexp
class plus vertical tab. -/
def isUnicodeSpace (c : Char) : Bool :=
  isSpaceChar c || c = Char.ofNat 11

/-- Go regexp `\w`: `[0-9A-Za-z_]`. -/
def isWordChar (c : Char) : Bool :=
  ('0' ≤ c && c ≤ '9') || ('A' ≤ c && c ≤ 'Z') || ('a' ≤ c && c ≤ 'z') || c = '_'

/-- `strings.TrimSpace` on ASCII text. -/
def trimSpace (s : Str) : Str :=
  ((s.dropWhile isUnicodeSpace).reverse.dropWhile isUnicodeSpace).reverse

/-- ASCII upper-casing (`strings.ToUpper`, and case-insensitive matching). -/
def toUpperStr (s : Str) : Str := s.map Char.toUpper

/-- Case-insensitive literal prefix test (for `(?i)` patterns). -/
def ciPrefix (kw : Str) (s : Str) : Bool := toUpperStr (s.take kw.length) = kw

/-- `removeComments` step 1: the regex `--[^\n]*` deletes from each `--` to
just before the next newline. -/
def stripLineComments : Nat → Str → Str
  | 0, s => s
  | _ + 1, [] => []
  | fuel + 1, '-' :: '-' :: rest => stripLineComments fuel (rest.dropWhile (fun c => c ≠ '\n'))
  | fuel + 1, c :: rest => c :: stripLineComments fuel rest

/-- The lazy `.*?\*/` tail of a block comment: the remainder after the
earliest `*/`, failing on a newline (Go `.` does not match `\n`). -/
def blockCommentEnd : Nat → Str → Option Str
  | 0, _ => none
  | _ + 1, [] => none
  | _ + 1, '*' :: '/' :: rest => some rest
  | fuel + 1, c :: rest => if c = '\n' then none else blockCommentEnd fuel rest

/-- `removeComments` step 2: the regex `/\*.*?\*/` (single-line only, since
`.` does not match `\n`). -/
def stripBlockComments : Nat → Str → Str
  | 0, s => s
  | _ + 1, [] => []
  | fuel + 1, '/' :: '*' :: rest =>
    match blockCommentEnd rest.length rest with
    | some rem => stripBlockComments fuel rem
    | none => '/' :: stripBlockComments fuel ('*' :: rest)
  | fuel + 1, c :: rest => c :: stripBlockComments fuel rest

/-- `removeComments` (src/unnamed/part_000 lines 255-265). -/
def removeComments (sql : Str) : Str :=
  let s1 := stripLineComments sql.length sql
  stripBlockComments s1.length s1

/-- Characters allowed in a path hint after the leading `$`:
`[\w\[\]\.\*]`. -/
def isHintChar (c : Char) : Bool :=
  isWordChar c || c = '[' || c = ']' || c = '.' || c = '*'

/-- One attempt of the hint regex
`--\s*PATH:?\s+(\$|\w+)\s+(\$[\w\[\]\.\*]*)` at the head of `s`: on success
returns `(alias, path)` and the remainder after the match. -/
def matchHint (s : Str) : Option ((Str × Str) × Str) :=
  match s with
  | '-' :: '-' :: s1 =>
    let s2 := s1.dropWhile isSpaceChar
    match s2 with
    | 'P' :: 'A' :: 'T' :: 'H' :: s3 =>
      let s4 := match s3 with
                | ':' :: s3b => s3b
                | _ => s3
      match s4 with
      | c :: _ =>
        if isSpaceChar c then
          let s5 := s4.dropWhile isSpaceChar
          let aliasRes : Option (Str × Str) :=
            match s5 with
            | '$' :: s6 => some (['$'], s6)
            | _ =>
              let w := s5.takeWhile isWordChar
              if w.isEmpty then none else some (w, s5.dropWhile isWordChar)
          match aliasRes with
          | none => none
          | some (al, s6) =>
            match s6 with
            | d :: _ =>
              if isSpaceChar d then
                let s7 := s6.dropWhile isSpaceChar
                match s7 with
                | '$' :: s8 =>
                  some ((al, '$' :: s8.takeWhile isHintChar), s8.dropWhile isHintChar)
                | _ => none
              else none
            | [] => none
        else none
      | [] => none
    | _ => none
  | _ => none

/-- Leftmost, non-overlapping scan for path hints; later hints for the same
alias overwrite earlier ones (`hints[alias] = path`). -/
def scanHints : Nat → Str → OMap Str → OMap Str
  | 0, _, acc => acc
  | _ + 1, [], acc => acc
  | fuel + 1, c :: rest, acc =>
    match matchHint (c :: rest) with
    | some ((al, p), rem) => scanHints fuel rem (omSet acc al p)
    | none => scanHints fuel rest acc

/-- `extractPathHints` (src/unnamed/part_000 lines 65-83). -/
def extractPathHints (sql : Str) : OMap Str := scanHints sql.length sql []

/-- The alternation of stop keywords after the FROM table list. -/
def fromStopKeywords : List Str :=
  [str "WHERE", str "LEFT", str "RIGHT", str "INNER", str "OUTER",
   str "JOIN", str "ORDER", str "GROUP", str "LIMIT", str "HAVING"]

/-- Whether `s` starts with `\s+` followed by one of the stop keywords
(case-insensitively). -/
def fromStopAfter (s : Str) : Bool :=
  match s with
  | c :: _ =>
    isSpaceChar c && fromStopKeywords.any (fun kw => ciPrefix kw (s.dropWhile isSpaceChar))
  | [] => false

/-- The lazy capture `(.+?)` of the FROM regex: the shortest non-empty run of
non-newline characters followed by `\s+`-keyword or the end of the text. -/
def fromCapture : Nat → Str → Str → Option Str
  | _, acc, [] => if acc.isEmpty then none else some acc.reverse
  | 0, _, _ => none
  | fuel + 1, acc, c :: rest =>
    if !acc.isEmpty && fromStopAfter (c :: rest) then some acc.reverse
    else if c = '\n' then none
    else fromCapture fuel (c :: acc) rest

/-- Leftmost match of
`(?i)FROM\s+(.+?)(?:\s+(?:WHERE|LEFT|RIGHT|INNER|OUTER|JOIN|ORDER|GROUP|LIMIT|HAVING)|$)`:
the captured table list of the first match, if any. -/
def findFromClause : Nat → Str → Option Str
  | 0, _ => none
  | _ + 1, [] => none
  | fuel + 1, c :: rest =>
    (if ciPrefix (str "FROM") (c :: rest) then
      let s3 := (c :: rest).drop 4
      match s3 with
      | d :: _ =>
        if isSpaceChar d then
          let s4 := s3.dropWhile isSpaceChar
          fromCapture s4.length [] s4
        else none
      | [] => none
    else none).orElse (fun _ => findFromClause fuel rest)

/-- Go regexp `\s+`.Split: split on maximal whitespace runs (applied here to
trimmed, non-empty table specs). -/
def splitWSAux : Nat → Str → Str → List Str
  | _, [], acc => [acc.reverse]
  | 0, s, acc => [acc.reverse ++ s]
  | fuel + 1, c :: rest, acc =>
    if isSpaceChar c then acc.reverse :: splitWSAux fuel (rest.dropWhile isSpaceChar) []
    else splitWSAux fuel rest (c :: acc)

/-- Split a string on whitespace runs. -/
def splitWS (s : Str) : List Str := splitWSAux s.length s []

/-- SQL keywords that are rejected as aliases (src/unnamed/part_000 lines
124-128). -/
def isKeywordAlias (al : Str) : Bool :=
  let u := toUpperStr al
  u = str "WHERE" || u = str "LEFT" || u = str "RIGHT" || u = str "INNER" ||
  u = str "OUTER" || u = str "JOIN" || u = str "ORDER" || u = str "GROUP" ||
  u = str "LIMIT" || u = str "HAVING"

/-- Process one comma-separated table spec of the FROM clause
(src/unnamed/part_000 lines 100-132). -/
def fromTableSpec (tables : OMap Str) (spec0 : Str) : OMap Str :=
  let spec := trimSpace spec0
  if spec.isEmpty then tables
  else
    let parts := splitWS spec
    match parts with
    | [] => tables
    | tableName :: restParts =>
      let al :=
        match restParts with
        | second :: third :: _ =>
          if toUpperStr second = str "AS" then third
          else second
        | [second] =>
          if toUpperStr second = str "AS" then tableName else second
        | [] => tableName
      if isKeywordAlias al then tables else omSet tables al tableName

/-- `extractFromClause` (src/unnamed/part_000 lines 86-134), returning the
updated tables map. -/
def extractFromClause (sql : Str) (tables : OMap Str) : OMap Str :=
  let s := removeComments sql
  match findFromClause s.length s with
  | none => tables
  | some tableList => (splitGo (str ",") tableList).foldl fromTableSpec tables

/-- One attempt of `(\w+)\.(\w+)\s*=\s*(\w+)\.(\w+)` at the head of `s`. -/
def matchJoinColumn (s : Str) : Option (JoinColumn × Str) :=
  let w1 := s.takeWhile isWordChar
  if w1.isEmpty then none
  else
    match s.dropWhile isWordChar with
    | '.' :: s2 =>
      let w2 := s2.takeWhile isWordChar
      if w2.isEmpty then none
      else
        match (s2.dropWhile isWordChar).dropWhile isSpaceChar with
        | '=' :: s3 =>
          let s4 := s3.dropWhile isSpaceChar
          let w3 := s4.takeWhile isWordChar
          if w3.isEmpty then none
          else
            match s4.dropWhile isWordChar with
            | '.' :: s5 =>
              let w4 := s5.takeWhile isWordChar
              if w4.isEmpty then none
              else some (⟨w1, w2, w3, w4⟩, s5.dropWhile isWordChar)
            | _ => none
        | _ => none
    | _ => none

/-- Leftmost, non-overlapping scan of a join condition for
`alias.column = alias.column` pairs. -/
def scanJoinColumns : Nat → Str → List JoinColumn
  | 0, _ => []
  | _ + 1, [] => []
  | fuel + 1, c :: rest =>
    match matchJoinColumn (c :: rest) with
    | some (jc, rem) => jc :: scanJoinColumns fuel rem
    | none => scanJoinColumns fuel rest

/-- `parseJoinCondition` (src/unnamed/part_000 lines 232-252). -/
def parseJoinCondition (condition : Str) : List JoinColumn :=
  scanJoinColumns condition.length condition

/-- The optional join-type group `(LEFT\s+|RIGHT\s+|INNER\s+|OUTER\s+|CROSS\s+)?`:
on a match returns the raw captured text and the remainder. -/
def matchJoinType (s : Str) : Option (Str × Str) :=
  [str "LEFT", str "RIGHT", str "INNER", str "OUTER", str "CROSS"].firstM
    (fun kw =>
      if ciPrefix kw s then
        let s2 := s.drop kw.length
        match s2 with
        | c :: _ =>
          if isSpaceChar c then
            some (s.take kw.length ++ s2.takeWhile isSpaceChar, s2.dropWhile isSpaceChar)
          else none
        | [] => none
      else none)

/-- The tail `\s+ON\s+(.+)` of the join regex: returns the raw captured
condition and the remainder after it.  When only whitespace precedes the end
of the line, the greedy `\s+` backtracks one character so that `(.+)` can
match a single trailing space (`.` does not match `\n`). -/
def matchOnCond (s : Str) : Option (Str × Str) :=
  match s with
  | c :: _ =>
    if isSpaceChar c then
      let s2 := s.dropWhile isSpaceChar
      if ciPrefix (str "ON") s2 then
        let s3 := s2.drop 2
        match s3 with
        | d :: _ =>
          if isSpaceChar d then
            let run := s3.takeWhile isSpaceChar
            let s4 := s3.dropWhile isSpaceChar
            let cond := s4.takeWhile (fun ch => ch ≠ '\n')
            if !cond.isEmpty then some (cond, s4.dropWhile (fun ch => ch ≠ '\n'))
            else if run.length ≥ 2 && run.getLastD '\n' ≠ '\n' then
              some ([run.getLastD '\n'], s4)
            else none
          else none
        | [] => none
      else none
    else none
  | [] => none

/-- The core of the join regex after the optional join-type group:
`JOIN\s+(\w+)(?:\s+(?:AS\s+)?(\w+))?\s+ON\s+(.+)`.  The optional alias group
backtracks: first `AS`-plus-alias, then a bare alias word, then no alias. -/
def matchJoinCore (s1 : Str) : Option ((Str × Option Str × Str) × Str) :=
  if ciPrefix (str "JOIN") s1 then
    let s2 := s1.drop 4
    match s2 with
    | c :: _ =>
      if isSpaceChar c then
        let s3 := s2.dropWhile isSpaceChar
        let tbl := s3.takeWhile isWordChar
        if tbl.isEmpty then none
        else
          let s4 := s3.dropWhile isWordChar
          let attemptAS : Option ((Str × Option Str × Str) × Str) :=
            match s4 with
            | d :: _ =>
              if isSpaceChar d then
                let s5 := s4.dropWhile isSpaceChar
                if ciPrefix (str "AS") s5 then
                  let s6 := s5.drop 2
                  match s6 with
                  | e :: _ =>
                    if isSpaceChar e then
                      let s7 := s6.dropWhile isSpaceChar
                      let w := s7.takeWhile isWordChar
                      if w.isEmpty then none
                      else
                        match matchOnCond (s7.dropWhile isWordChar) with
                        | some (cond, rem) => some ((tbl, some w, cond), rem)
                        | none => none
                    else none
                  | [] => none
                else none
              else none
            | [] => none
          let attemptBare : Option ((Str × Option Str × Str) × Str) :=
            match s4 with
            | d :: _ =>
              if isSpaceChar d then
                let s5 := s4.dropWhile isSpaceChar
                let w := s5.takeWhile isWordChar
                if w.isEmpty then none
                else
                  match matchOnCond (s5.dropWhile isWordChar) with
                  | some (cond, rem) => some ((tbl, some w, cond), rem)
                  | none => none
              else none
            | [] => none
          let attemptNone : Option ((Str × Option Str × Str) × Str) :=
            match matchOnCond s4 with
            | some (cond, rem) => some ((tbl, none, cond), rem)
            | none => none
          attemptAS.orElse (fun _ => attemptBare.orElse (fun _ => attemptNone))
      else none
    | [] => none
  else none

/-- One attempt of the full join regex at the head of `s`: the raw join-type
capture, table, optional alias, raw condition, and the remainder.  When the
join-type group matches, the text starts with that keyword and cannot also
start with `JOIN`, so no backtracking over the optional group is needed. -/
def matchJoinAt (s : Str) : Option ((Str × Str × Option Str × Str) × Str) :=
  match matchJoinType s with
  | some (jt, s1) =>
    match matchJoinCore s1 with
    | some ((tbl, al, cond), rem) => some ((jt, tbl, al, cond), rem)
    | none => none
  | none =>
    match matchJoinCore s with
    | some ((tbl, al, cond), rem) => some (([], tbl, al, cond), rem)
    | none => none

/-- First index of `pat` in `s`, if any (`strings.Index`). -/
def indexOfSubAux (pat : Str) : Nat → Str → Nat → Option Nat
  | _, [], i => if pat.isEmpty then some i else none
  | 0, _, _ => none
  | fuel + 1, c :: rest, i =>
    if pat.isPrefixOf (c :: rest) then some i else indexOfSubAux pat fuel rest (i + 1)

/-- `strings.Index s pat` as an `Option`. -/
def indexOfSub (s pat : Str) : Option Nat := indexOfSubAux pat s.length s 0

/-- Trim the condition at the first stop word found, in the word-list order
WHERE, GROUP BY, GROUP, ORDER BY, ORDER, LIMIT, HAVING (src/unnamed/part_000
lines 162-170). -/
def trimStopWords (cond : Str) : Str :=
  let u := toUpperStr cond
  let hit := [str "WHERE", str "GROUP BY", str "GROUP", str "ORDER BY",
              str "ORDER", str "LIMIT", str "HAVING"].firstM
    (fun w => (indexOfSub u w).map (fun i => i))
  match hit with
  | some i => trimSpace (cond.take i)
  | none => cond

/-- Fold one raw join match into the tables map and join list
(src/unnamed/part_000 lines 147-227), with map iteration modeled in
insertion order. -/
def processJoin (st : OMap Str × List JoinInfo) (m : Str × Str × Option Str × Str) :
    OMap Str × List JoinInfo :=
  let tables := st.1
  let jtRaw := m.1
  let tableName := m.2.1
  let al := match m.2.2.1 with
            | some a => a
            | none => tableName
  let joinType0 := trimSpace (toUpperStr jtRaw)
  let joinType := if joinType0.isEmpty then str "INNER" else joinType0
  let condition := trimStopWords (trimSpace m.2.2.2)
  let tables2 := omSet tables al tableName
  let onCols := parseJoinCondition condition
  let firstOther := tables2.find? (fun e => e.1 ≠ al)
  let la :=
    match onCols with
    | oc0 :: _ =>
      if oc0.rightAlias = al then oc0.leftAlias
      else if oc0.leftAlias = al then oc0.rightAlias
      else match firstOther with
           | some e => e.1
           | none => []
    | [] =>
      match firstOther with
      | some e => e.1
      | none => []
  let lt := if la.isEmpty then [] else
    match omGet tables2 la with
    | some t => t
    | none => []
  (tables2, st.2 ++ [⟨la, lt, al, tableName, joinType, condition, onCols⟩])

/-- Leftmost, non-overlapping scan for join clauses. -/
def scanJoins : Nat → Str → OMap Str × List JoinInfo → OMap Str × List JoinInfo
  | 0, _, st => st
  | _ + 1, [], st => st
  | fuel + 1, c :: rest, st =>
    match matchJoinAt (c :: rest) with
    | some (m, rem) => scanJoins fuel rem (processJoin st m)
    | none => scanJoins fuel rest st

/-- `extractJoins` (src/unnamed/part_000 lines 137-228). -/
def extractJoins (sql : Str) (st : OMap Str × List JoinInfo) :
    OMap Str × List JoinInfo :=
  let s := removeComments sql
  scanJoins s.length s st

/-- `QueryAnalysis` (src/unnamed/part_000 lines 35-39): tables and path
hints as insertion-ordered maps. -/
structure QueryAnalysis where
  tables : OMap Str
  joins : List JoinInfo
  pathHints : OMap Str
deriving DecidableEq, Repr

/-- `AnalyzeQuery` (src/unnamed/part_000 lines 42-59): extract hints, the
FROM clause and the joins; the Go function unconditionally returns
`analysis, nil`, modeled as `Except.ok`. -/
def AnalyzeQuery (sql : Str) : Except Str QueryAnalysis :=
  let hints := extractPathHints sql
  let tables1 := extractFromClause sql []
  let tj := extractJoins sql (tables1, [])
  .ok ⟨tj.1, tj.2, hints⟩

/-- C5: `AnalyzeQuery` never fails: for every input string, including
malformed SQL, it returns a `QueryAnalysis` and a nil error; constructs the
regex scans do not recognize are simply absent from the result. -/
theorem analyzeQuery_never_fails (sql : Str) :
    isErr (AnalyzeQuery sql) = false ∧ ∃ a, AnalyzeQuery sql = Except.ok a :=
  ⟨rfl, ⟨_, rfl⟩⟩
